import Mathlib

/-!
Verification development for the anyFAST core (Rust sources under
`src-tauri/src`).  The hosts-file manager (`hosts_manager.rs`) is embedded at
the character level (`List Char`), the endpoint tester and health checker
(`endpoint_tester.rs`, `health_checker.rs`, `models.rs`) at the level of
latencies (`ℚ`) and opaque strings, with network probes supplied as oracles.
-/

namespace AnyFast

/-- Character sequences; hosts-file contents and lines are lists of Unicode
scalar values, mirroring Rust `str` (we work on decoded text, as the Rust code
does after `String::from_utf8_lossy`). -/
abbrev Str := List Char

/-- Rust `char::is_whitespace`: the Unicode `White_Space` property.  This is a
fixed list of 25 code points, embedded exactly. -/
def rustIsWhitespace (c : Char) : Bool :=
  c.toNat = 0x09 || c.toNat = 0x0A || c.toNat = 0x0B || c.toNat = 0x0C ||
  c.toNat = 0x0D || c.toNat = 0x20 || c.toNat = 0x85 || c.toNat = 0xA0 ||
  c.toNat = 0x1680 ||
  (0x2000 ≤ c.toNat && c.toNat ≤ 0x200A) ||
  c.toNat = 0x2028 || c.toNat = 0x2029 || c.toNat = 0x202F ||
  c.toNat = 0x205F || c.toNat = 0x3000

/-- Rust `char::is_control`: the Unicode `Cc` category, which is exactly
U+0000–U+001F and U+007F–U+009F.  Embedded exactly. -/
def rustIsControl (c : Char) : Bool :=
  c.toNat ≤ 0x1F || (0x7F ≤ c.toNat && c.toNat ≤ 0x9F)

/-- Rust `char::is_alphanumeric`: Unicode `Alphabetic` plus categories
`Nd`/`Nl`/`No`.  Modelled exactly on the Basic Latin and Latin-1 Supplement
blocks (U+0000–U+00FF), which have been stable in every Unicode version:
ASCII letters and digits, the Latin-1 letters U+00C0–U+00D6, U+00D8–U+00F6,
U+00F8–U+00FF, the letters U+00AA, U+00B5, U+00BA, and the numeric
characters U+00B2, U+00B3, U+00B9, U+00BC–U+00BE.  Above U+00FF Rust accepts
many further characters from version-dependent generated tables; this model
maps those code points to `false`, an under-approximation, so every theorem
that characterizes the accepted domain character set carries the explicit
hypothesis that the domain lies in the Latin-1 range, where the table is
exact.  (`rustIsAlphanumeric_latin1` shows that a domain the model accepts
consists of Latin-1 characters only, so the model's acceptance conclusions
are sound without that hypothesis.) -/
def rustIsAlphanumeric (c : Char) : Bool :=
  (('a' ≤ c && c ≤ 'z') || ('A' ≤ c && c ≤ 'Z') || ('0' ≤ c && c ≤ '9')) ||
  (0xC0 ≤ c.toNat && c.toNat ≤ 0xFF && c.toNat ≠ 0xD7 && c.toNat ≠ 0xF7) ||
  c.toNat = 0xAA || c.toNat = 0xB5 || c.toNat = 0xBA ||
  c.toNat = 0xB2 || c.toNat = 0xB3 || c.toNat = 0xB9 ||
  c.toNat = 0xBC || c.toNat = 0xBD || c.toNat = 0xBE

theorem length_dropWhile_le (p : Char → Bool) (l : Str) :
    (l.dropWhile p).length ≤ l.length := by
  induction l with
  | nil => simp [List.dropWhile]
  | cons c r ih =>
    by_cases h : p c
    · simp [List.dropWhile, h]; omega
    · simp [List.dropWhile, h]

/-- Tokenizer worker for `words`: `cur` is the reversed current token. -/
def wordsGo (cur : Str) (s : Str) : List Str :=
  match s with
  | [] => if cur = [] then [] else [cur.reverse]
  | c :: rest =>
    if rustIsWhitespace c then
      if cur = [] then wordsGo [] rest else cur.reverse :: wordsGo [] rest
    else wordsGo (c :: cur) rest

/-- Rust `str::split_whitespace`: the maximal non-empty runs of
non-whitespace characters. -/
def words (s : Str) : List Str := wordsGo [] s

/-- Rust `str::trim`: strip leading and trailing Unicode whitespace. -/
def rustTrim (s : Str) : Str :=
  ((s.dropWhile rustIsWhitespace).reverse.dropWhile rustIsWhitespace).reverse

/-- Rust `str::starts_with('#')`. -/
def startsHash (s : Str) : Bool :=
  match s with
  | '#' :: _ => true
  | _ => false

/-- Rust `str::contains(needle)`: substring containment. -/
def containsSub (needle hay : Str) : Bool :=
  hay.tails.any (fun t => needle.isPrefixOf t)

/-- Block marker `# BEGIN anyFAST` from `hosts_manager.rs`. -/
def MARKER_BEGIN : Str := "# BEGIN anyFAST".data

/-- Block marker `# END anyFAST` from `hosts_manager.rs`. -/
def MARKER_END : Str := "# END anyFAST".data

/-- Legacy per-line marker `# anyFAST` from `hosts_manager.rs`. -/
def MARKER_LINE : Str := "# anyFAST".data

/-! ### IP address parsing

`validate_ip` in `hosts_manager.rs` delegates to `ip.parse::<IpAddr>()`.
The following functions model the recursive-descent parser of Rust
`core::net::parser`: an IPv4 address is four dot-separated decimal octets of
at most three digits with no leading zeros and value at most 255; an IPv6
address is up to eight colon-separated 16-bit hexadecimal groups with an
optional single `::` and an optional trailing embedded IPv4 pair.  Parsing
succeeds only when the whole input is consumed. -/

def isDigitChar (c : Char) : Bool := '0' ≤ c && c ≤ '9'

def isHexChar (c : Char) : Bool :=
  isDigitChar c || ('a' ≤ c && c ≤ 'f') || ('A' ≤ c && c ≤ 'F')

def digitVal (c : Char) : ℕ := c.toNat - '0'.toNat

def hexVal (c : Char) : ℕ :=
  if isDigitChar c then c.toNat - 0x30
  else if 'a' ≤ c && c ≤ 'f' then c.toNat - 0x57
  else c.toNat - 0x37

/-- Rust `Parser::read_number(10, Some(3), false)`: greedily read the decimal
digits, reject more than three of them, reject a zero prefix, reject values
above 255. -/
def readOctet (s : Str) : Option (ℕ × Str) :=
  if s.takeWhile isDigitChar = [] then none
  else if 3 < (s.takeWhile isDigitChar).length then none
  else if 1 < (s.takeWhile isDigitChar).length ∧
      (s.takeWhile isDigitChar).head? = some '0' then none
  else if (s.takeWhile isDigitChar).foldl (fun a c => a * 10 + digitVal c) 0 ≤ 255 then
    some ((s.takeWhile isDigitChar).foldl (fun a c => a * 10 + digitVal c) 0,
      s.dropWhile isDigitChar)
  else none

def expectChar (c : Char) (s : Str) : Option Str :=
  match s with
  | x :: r => if x = c then some r else none
  | [] => none

/-- Rust `Parser::read_ipv4_addr`: four octets separated by `.`. -/
def readIpv4 (s : Str) : Option ((ℕ × ℕ × ℕ × ℕ) × Str) :=
  match readOctet s with
  | none => none
  | some (a, s1) =>
    match expectChar '.' s1 with
    | none => none
    | some s2 =>
      match readOctet s2 with
      | none => none
      | some (b, s3) =>
        match expectChar '.' s3 with
        | none => none
        | some s4 =>
          match readOctet s4 with
          | none => none
          | some (c, s5) =>
            match expectChar '.' s5 with
            | none => none
            | some s6 =>
              match readOctet s6 with
              | none => none
              | some (d, s7) => some ((a, b, c, d), s7)

def parse_ipv4 (s : Str) : Bool :=
  match readIpv4 s with
  | some (_, []) => true
  | _ => false

/-- Rust `Parser::read_number(16, Some(4), true)`: one to four hex digits. -/
def readGroup16 (s : Str) : Option (ℕ × Str) :=
  if s.takeWhile isHexChar = [] then none
  else if 4 < (s.takeWhile isHexChar).length then none
  else some ((s.takeWhile isHexChar).foldl (fun a c => a * 16 + hexVal c) 0,
    s.dropWhile isHexChar)

/-- Rust `Parser::read_separator`: require a `:` before every group except
the first; atomic (no input is consumed on failure). -/
def sepThen {α : Type} (i : ℕ) (inner : Str → Option (α × Str)) (s : Str) :
    Option (α × Str) :=
  if i = 0 then inner s
  else
    match s with
    | ':' :: r => inner r
    | _ => none

/-- Rust `read_groups`: read up to `limit` colon-separated groups, stopping
early when a group is missing; a trailing embedded IPv4 address (which fills
two group slots) may appear whenever at least two slots remain.  Returns the
number of group slots filled, whether an embedded IPv4 ended the run, and the
remaining input. -/
def readGroupsAux (limit : ℕ) : ℕ → ℕ → Str → ℕ × Bool × Str
  | 0, i, s => (i, false, s)
  | fuel + 1, i, s =>
    if i < limit then
      match (if i + 1 < limit then sepThen i readIpv4 s else none) with
      | some (_, r) => (i + 2, true, r)
      | none =>
        match sepThen i readGroup16 s with
        | some (_, r) => readGroupsAux limit fuel (i + 1) r
        | none => (i, false, s)
    else (i, false, s)

/-- Rust `Parser::read_ipv6_addr` followed by the end-of-input check of
`parse_with`.  After the head groups, a `::` must be present unless all eight
groups were read; the tail may fill at most `8 - (head + 1)` groups since
`::` stands for at least one zero group. -/
def parse_ipv6 (s : Str) : Bool :=
  match readGroupsAux 8 8 0 s with
  | (headSize, headIpv4, r) =>
    if headSize = 8 then decide (r = [])
    else if headIpv4 then false
    else
      match r with
      | ':' :: ':' :: r2 =>
        match readGroupsAux (8 - (headSize + 1)) (8 - (headSize + 1)) 0 r2 with
        | (_, _, r3) => decide (r3 = [])
      | _ => false

/-- Rust `ip.parse::<IpAddr>()`: an IPv4 address or an IPv6 address. -/
def rustParseIp (s : Str) : Bool := parse_ipv4 s || parse_ipv6 s

example : rustParseIp "1.2.3.4".data = true := by decide
example : rustParseIp "255.255.255.255".data = true := by decide
example : rustParseIp "01.2.3.4".data = false := by decide
example : rustParseIp "256.2.3.4".data = false := by decide
example : rustParseIp "1.2.3".data = false := by decide
example : rustParseIp "".data = false := by decide
example : rustParseIp "abc".data = false := by decide
example : rustParseIp "::1".data = true := by decide
example : rustParseIp "2001:db8::ff00:42:8329".data = true := by decide
example : rustParseIp "::ffff:1.2.3.4".data = true := by decide
example : rustParseIp "1:2:3:4:5:6:7:8".data = true := by decide
example : rustParseIp "1:2:3:4:5:6:7:8:9".data = false := by decide
example : rustParseIp ":::".data = false := by decide
example : rustParseIp "hello world".data = false := by decide

/-! ### String ordering and the bindings map

`ParsedHosts.anyrouter_bindings` is a `HashMap<String, String>` in Rust whose
only observations are `insert`, `remove`, `get`, `len`, `is_empty` and an
iteration that is immediately sorted by domain (`render` does
`sort_by_key(domain)`).  We model it canonically as an association list kept
strictly sorted by domain under the byte-lexicographic order of Rust
`String`, which on decoded text coincides with code-point-lexicographic
order. -/

def charCmp (a b : Char) : Ordering := compare a.toNat b.toNat

def strCmp : Str → Str → Ordering
  | [], [] => .eq
  | [], _ :: _ => .lt
  | _ :: _, [] => .gt
  | a :: as, b :: bs => (charCmp a b).then (strCmp as bs)

theorem charToNat_inj {a b : Char} (h : a.toNat = b.toNat) : a = b := by
  have hv : a.val = b.val := UInt32.toNat.inj h
  exact Char.eq_of_val_eq hv

theorem charCmp_eq_iff {a b : Char} : charCmp a b = .eq ↔ a = b := by
  unfold charCmp
  rw [Nat.compare_eq_eq]
  exact ⟨charToNat_inj, fun h => by rw [h]⟩

theorem charCmp_lt_iff {a b : Char} : charCmp a b = .lt ↔ a.toNat < b.toNat := by
  unfold charCmp; exact Nat.compare_eq_lt

theorem charCmp_gt_iff {a b : Char} : charCmp a b = .gt ↔ b.toNat < a.toNat := by
  unfold charCmp; exact Nat.compare_eq_gt

theorem charCmp_self (a : Char) : charCmp a a = .eq := charCmp_eq_iff.mpr rfl

theorem strCmp_eq_iff : ∀ {a b : Str}, strCmp a b = .eq ↔ a = b := by
  intro a
  induction a with
  | nil => intro b; cases b <;> simp [strCmp]
  | cons x xs ih =>
    intro b
    cases b with
    | nil => simp [strCmp]
    | cons y ys =>
      rcases h : charCmp x y with _ | _ | _
      · have hne : x ≠ y := fun he => by rw [he, charCmp_self] at h; cases h
        simp [strCmp, h, Ordering.then, hne]
      · have he : x = y := charCmp_eq_iff.mp h
        subst he
        simp [strCmp, h, Ordering.then, ih]
      · have hne : x ≠ y := fun he => by rw [he, charCmp_self] at h; cases h
        simp [strCmp, h, Ordering.then, hne]

theorem strCmp_gt_iff_lt : ∀ {a b : Str}, strCmp a b = .gt ↔ strCmp b a = .lt := by
  intro a
  induction a with
  | nil => intro b; cases b <;> simp [strCmp]
  | cons x xs ih =>
    intro b
    cases b with
    | nil => simp [strCmp]
    | cons y ys =>
      rcases h : charCmp x y with _ | _ | _
      · have h' : charCmp y x = .gt := charCmp_gt_iff.mpr (charCmp_lt_iff.mp h)
        simp [strCmp, h, h', Ordering.then]
      · have he : x = y := charCmp_eq_iff.mp h
        subst he
        simp [strCmp, charCmp_self, Ordering.then, ih]
      · have h' : charCmp y x = .lt := charCmp_lt_iff.mpr (charCmp_gt_iff.mp h)
        simp [strCmp, h, h', Ordering.then]

theorem strCmp_lt_trans :
    ∀ {a b c : Str}, strCmp a b = .lt → strCmp b c = .lt → strCmp a c = .lt := by
  intro a
  induction a with
  | nil =>
    intro b c hab hbc
    cases b with
    | nil => exact hbc
    | cons y ys => cases c with
      | nil => simp [strCmp] at hbc
      | cons z zs => simp [strCmp]
  | cons x xs ih =>
    intro b c hab hbc
    cases b with
    | nil => simp [strCmp] at hab
    | cons y ys =>
      cases c with
      | nil => simp [strCmp] at hbc
      | cons z zs =>
        rcases hxy : charCmp x y with _ | _ | _ <;>
          simp [strCmp, hxy, Ordering.then] at hab
        · rcases hyz : charCmp y z with _ | _ | _ <;>
            simp [strCmp, hyz, Ordering.then] at hbc
          · have hxz : charCmp x z = .lt :=
              charCmp_lt_iff.mpr
                (Nat.lt_trans (charCmp_lt_iff.mp hxy) (charCmp_lt_iff.mp hyz))
            simp [strCmp, hxz, Ordering.then]
          · have he : y = z := charCmp_eq_iff.mp hyz
            subst he
            simp [strCmp, hxy, Ordering.then]
        · have he : x = y := charCmp_eq_iff.mp hxy
          subst he
          rcases hyz : charCmp x z with _ | _ | _ <;>
            simp [strCmp, hyz, Ordering.then] at hbc ⊢
          exact ih hab hbc

/-- Bindings map: strictly-sorted (by domain) association list. -/
abbrev Bindings := List (Str × Str)

/-- Order on entries used for the sortedness invariant. -/
def keyLt (p q : Str × Str) : Prop := strCmp p.1 q.1 = .lt

instance : DecidableRel keyLt := fun p q => by unfold keyLt; infer_instance

/-- `HashMap::insert` on the canonical representation. -/
def insertB (d ip : Str) : Bindings → Bindings
  | [] => [(d, ip)]
  | (d', ip') :: rest =>
    match strCmp d d' with
    | .lt => (d, ip) :: (d', ip') :: rest
    | .eq => (d, ip) :: rest
    | .gt => (d', ip') :: insertB d ip rest

/-- `HashMap::remove` on the canonical representation. -/
def removeB (d : Str) (m : Bindings) : Bindings :=
  m.filter (fun p => p.1 ≠ d)

theorem mem_insertB {x : Str × Str} {d ip : Str} :
    ∀ {m : Bindings}, x ∈ insertB d ip m → x = (d, ip) ∨ x ∈ m := by
  intro m
  induction m with
  | nil => intro h; simp [insertB] at h; exact Or.inl h
  | cons p rest ih =>
    intro h
    obtain ⟨d', ip'⟩ := p
    simp only [insertB] at h
    rcases hc : strCmp d d' with _ | _ | _ <;> rw [hc] at h <;> simp at h
    · rcases h with h | h | h
      · exact Or.inl h
      · exact Or.inr (by simp [h])
      · exact Or.inr (by simp [h])
    · rcases h with h | h
      · exact Or.inl h
      · exact Or.inr (by simp [h])
    · rcases h with h | h
      · exact Or.inr (by simp [h])
      · rcases ih h with h' | h'
        · exact Or.inl h'
        · exact Or.inr (by simp [h'])

theorem insertB_ne_nil {d ip : Str} : ∀ {m : Bindings}, insertB d ip m ≠ [] := by
  intro m
  cases m with
  | nil => simp [insertB]
  | cons p rest =>
    obtain ⟨d', ip'⟩ := p
    simp only [insertB]
    rcases hc : strCmp d d' with _ | _ | _ <;> simp

theorem insertB_sorted {d ip : Str} :
    ∀ {m : Bindings}, m.Pairwise keyLt → (insertB d ip m).Pairwise keyLt := by
  intro m
  induction m with
  | nil => intro _; simp [insertB, keyLt]
  | cons p rest ih =>
    intro hp
    obtain ⟨d', ip'⟩ := p
    rw [List.pairwise_cons] at hp
    obtain ⟨hall, hrest⟩ := hp
    simp only [insertB]
    rcases hc : strCmp d d' with _ | _ | _
    · rw [List.pairwise_cons]
      refine ⟨?_, List.pairwise_cons.mpr ⟨hall, hrest⟩⟩
      intro q hq
      rcases List.mem_cons.mp hq with h | h
      · subst h; exact hc
      · exact strCmp_lt_trans hc (hall q h)
    · have hde : d = d' := strCmp_eq_iff.mp hc
      subst hde
      rw [List.pairwise_cons]
      refine ⟨?_, hrest⟩
      intro q hq
      exact hall q hq
    · rw [List.pairwise_cons]
      refine ⟨?_, ih hrest⟩
      intro q hq
      rcases mem_insertB hq with h | h
      · subst h
        exact strCmp_gt_iff_lt.mp hc
      · exact hall q h

theorem insertB_append_last {d ip : Str} :
    ∀ {m : Bindings}, (∀ p ∈ m, strCmp p.1 d = .lt) →
      insertB d ip m = m ++ [(d, ip)] := by
  intro m
  induction m with
  | nil => intro _; simp [insertB]
  | cons p rest ih =>
    intro hall
    obtain ⟨d', ip'⟩ := p
    have h1 : strCmp d' d = .lt := hall (d', ip') (by simp)
    have h2 : strCmp d d' = .gt := strCmp_gt_iff_lt.mpr h1
    simp only [insertB, h2]
    rw [ih (fun q hq => hall q (by simp [hq]))]
    simp

/-- The fold that rebuilds the bindings map from the inserts encountered
during parsing, in encounter order (later inserts overwrite earlier ones,
as `HashMap::insert` does). -/
def foldInserts (l : List (Str × Str)) : Bindings :=
  l.foldl (fun m p => insertB p.1 p.2 m) []

theorem foldl_insertB_pairwise :
    ∀ (l : List (Str × Str)) (acc : Bindings), acc.Pairwise keyLt →
      (l.foldl (fun m p => insertB p.1 p.2 m) acc).Pairwise keyLt := by
  intro l
  induction l with
  | nil => intro acc h; simpa using h
  | cons p rest ih =>
    intro acc h
    simpa using ih (insertB p.1 p.2 acc) (insertB_sorted h)

theorem foldInserts_pairwise (l : List (Str × Str)) :
    (foldInserts l).Pairwise keyLt :=
  foldl_insertB_pairwise l [] (by simp)

theorem mem_foldl_insertB {x : Str × Str} :
    ∀ (l : List (Str × Str)) (acc : Bindings),
      x ∈ l.foldl (fun m p => insertB p.1 p.2 m) acc → x ∈ acc ∨ x ∈ l := by
  intro l
  induction l with
  | nil => intro acc h; exact Or.inl (by simpa using h)
  | cons p rest ih =>
    intro acc h
    simp only [List.foldl_cons] at h
    rcases ih (insertB p.1 p.2 acc) h with h' | h'
    · rcases mem_insertB h' with h'' | h''
      · exact Or.inr (by simp [h''])
      · exact Or.inl h''
    · exact Or.inr (by simp [h'])

theorem foldl_insertB_sorted_eq :
    ∀ (m acc : Bindings), (acc ++ m).Pairwise keyLt →
      m.foldl (fun b p => insertB p.1 p.2 b) acc = acc ++ m := by
  intro m
  induction m with
  | nil => intro acc _; simp
  | cons p rest ih =>
    intro acc h
    obtain ⟨d, ip⟩ := p
    have hall : ∀ q ∈ acc, strCmp q.1 d = .lt := by
      intro q hq
      have := (List.pairwise_append.mp h).2.2 q hq (d, ip) (by simp)
      exact this
    simp only [List.foldl_cons]
    rw [insertB_append_last hall]
    rw [ih (acc ++ [(d, ip)]) (by simpa using h)]
    simp

theorem foldInserts_sorted_id (m : Bindings) (h : m.Pairwise keyLt) :
    foldInserts m = m := by
  unfold foldInserts
  simpa using foldl_insertB_sorted_eq m [] (by simpa using h)

/-! ### Splitting content into lines and joining them back

`ParsedHosts::parse` iterates `content.lines()`: pieces split at `\n`, with a
`\r` immediately preceding a `\n` stripped, and a final empty piece (from a
trailing line terminator) dropped.  `render` joins with `"\n"`.
`read_hosts_content` strips a leading U+FEFF byte-order mark before
parsing. -/

def stripTailCr (l : Str) : Str :=
  if l.getLast? = some '\r' then l.dropLast else l

def splitNl : Str → List Str
  | [] => [[]]
  | c :: rest =>
    if c = '\n' then [] :: splitNl rest
    else
      match splitNl rest with
      | [] => [[c]]
      | h :: t => (c :: h) :: t

/-- Rust `str::lines` on decoded content: the pieces terminated by `\n` have
a trailing `\r` stripped; the final unterminated piece is kept as-is unless
it is empty. -/
def linesOf (content : Str) : List Str :=
  match (splitNl content).getLast? with
  | some lastPiece =>
    if lastPiece = [] then (splitNl content).dropLast.map stripTailCr
    else (splitNl content).dropLast.map stripTailCr ++ [lastPiece]
  | none => (splitNl content).dropLast.map stripTailCr

/-- Joining with `"\n"` as in `ParsedHosts::render`. -/
def joinNl : List Str → Str
  | [] => []
  | [l] => l
  | l :: ls => l ++ '\n' :: joinNl ls

/-- BOM stripping of `read_hosts_content` (on decoded text the UTF-8 BOM is
the single code point U+FEFF). -/
def stripBom (c : Str) : Str :=
  match c with
  | '﻿' :: r => r
  | _ => c

example : linesOf "a\r\nb".data = ["a".data, "b".data] := by decide
example : linesOf "a\n".data = ["a".data] := by decide
example : linesOf "".data = [] := by decide
example : linesOf "\n".data = [[]] := by decide
example : linesOf "a\r".data = ["a\r".data] := by decide

/-! ### `ParsedHosts::parse` -/

/-- The legacy-marker harvest condition of the pre-block branch of `parse`:
the trimmed line contains `# anyFAST`, is non-empty, and does not start with
`#`. -/
def isLegacy (l : Str) : Bool :=
  containsSub MARKER_LINE (rustTrim l) && !(rustTrim l).isEmpty &&
    !startsHash (rustTrim l)

/-- The in-block binding condition: non-empty trimmed line not starting with
`#`. -/
def inBlockBindCond (l : Str) : Bool :=
  !(rustTrim l).isEmpty && !startsHash (rustTrim l)

/-- Intermediate result of the line loop of `ParsedHosts::parse`: the
`before_block` and `after_block` buffers, the `HashMap` inserts in encounter
order, the `unclosed_block_lines` buffer, and the final `in_block` flag. -/
structure PParts where
  before : List Str
  afterCore : List Str
  inserts : List (Str × Str)
  unclosed : List Str
  endInBlock : Bool

/-- The binding harvested from a line when it has at least two whitespace
tokens: `(token[1], token[0]) = (domain, ip)`, else nothing. -/
def lineInserts (l : Str) : List (Str × Str) :=
  match words (rustTrim l) with
  | p0 :: p1 :: _ => [(p1, p0)]
  | _ => []

/-- The line loop of `ParsedHosts::parse`, with `inb = in_block` and
`found = found_block`. -/
def parseGo (inb found : Bool) : List Str → PParts
  | [] => ⟨[], [], [], [], inb⟩
  | l :: ls =>
    if rustTrim l = MARKER_BEGIN then parseGo true true ls
    else if rustTrim l = MARKER_END then parseGo false found ls
    else if inb then
      { parseGo inb found ls with
        inserts := (if inBlockBindCond l then lineInserts l else []) ++
          (parseGo inb found ls).inserts,
        unclosed := l :: (parseGo inb found ls).unclosed }
    else if found then
      { parseGo inb found ls with
        afterCore := l :: (parseGo inb found ls).afterCore }
    else if isLegacy l then
      { parseGo inb found ls with
        inserts := lineInserts l ++ (parseGo inb found ls).inserts }
    else
      { parseGo inb found ls with
        before := l :: (parseGo inb found ls).before }

/-- Unclosed-block recovery keeps a collected line unless it was a valid
binding: empty or `#`-prefixed lines are kept, lines with fewer than two
tokens are kept, and lines whose first token does not parse as an IP address
are kept. -/
def recoveryKeep (l : Str) : Bool :=
  if (rustTrim l).isEmpty || startsHash (rustTrim l) then true
  else
    match words (rustTrim l) with
    | p0 :: _ :: _ => !rustParseIp p0
    | _ => true

/-- The parsed model: `before_block`, `after_block`, and the (canonically
sorted) `anyrouter_bindings` map. -/
structure ParsedHosts where
  before : List Str
  after : List Str
  bindings : Bindings

/-- `ParsedHosts::parse` on a line list: run the loop, apply unclosed-block
recovery, and build the bindings map from the inserts. -/
def parseLines (ls : List Str) : ParsedHosts :=
  let P := parseGo false false ls
  { before := P.before,
    after := P.afterCore ++
      (if P.endInBlock = true ∧ P.unclosed ≠ [] then
        P.unclosed.filter recoveryKeep
      else []),
    bindings := foldInserts P.inserts }

/-- `ParsedHosts::parse` on decoded content. -/
def parseContent (c : Str) : ParsedHosts := parseLines (linesOf c)

/-! ### `ParsedHosts::render` -/

/-- One managed line: `<ip>\t<domain>\t# anyFAST`; the pair is
`(domain, ip)`. -/
def bindingLine (p : Str × Str) : Str :=
  p.2 ++ '\t' :: p.1 ++ '\t' :: MARKER_LINE

/-- The blank-line test of `render`: the line buffer is non-empty and its
last line is non-empty. -/
def needsBlank (ls : List Str) : Bool :=
  match ls.getLast? with
  | none => false
  | some l => !l.isEmpty

/-- The line list emitted by `ParsedHosts::render` (bindings are iterated in
domain-sorted order, which on the canonical representation is the order of
the list). -/
def renderLines (p : ParsedHosts) : List Str :=
  (if p.bindings.isEmpty then p.before
   else
     (if needsBlank p.before then p.before ++ [[]] else p.before) ++
       ([MARKER_BEGIN] ++ p.bindings.map bindingLine ++ [MARKER_END])) ++
  p.after

/-- `ParsedHosts::render`. -/
def render (p : ParsedHosts) : Str := joinNl (renderLines p)

example :
    (parseContent "127.0.0.1\tlocalhost\n# BEGIN anyFAST\n1.2.3.4\ttest.com\t# anyFAST\n# END anyFAST".data).bindings =
      [("test.com".data, "1.2.3.4".data)] := by decide

example :
    (parseContent "127.0.0.1\tlocalhost\n1.2.3.4\ttest.com\t# anyFAST".data).bindings =
      [("test.com".data, "1.2.3.4".data)] := by decide

example :
    render (parseContent "127.0.0.1\tlocalhost".data) =
      "127.0.0.1\tlocalhost".data := by decide

example :
    render { parseContent "127.0.0.1\tlocalhost".data with
             bindings := [("test.com".data, "1.2.3.4".data)] } =
      "127.0.0.1\tlocalhost\n\n# BEGIN anyFAST\n1.2.3.4\ttest.com\t# anyFAST\n# END anyFAST".data := by
  decide

/-! ### Validation and the mutation operations of `HostsManager`

Each `*_to_path`/`*_from_path` operation validates (where the code does),
opens the hosts file, reads it (stripping a BOM), parses, mutates the
bindings map, renders, and atomically writes.  We model an operation as a
function from the current file content to the outcome; the `opened` flag
records whether the hosts file was opened for writing (validation failures
return before the `OpenOptions::open` call). -/

inductive HostsError where
  | permissionDenied
  | invalidIp (msg : Str)
  | invalidDomain (msg : Str)
  | ioError
deriving DecidableEq

/-- `validate_ip`: `ip.parse::<IpAddr>()`, error `InvalidIp(ip)`. -/
def validate_ip (ip : Str) : Option HostsError :=
  if rustParseIp ip then none else some (.invalidIp ip)

/-- `validate_domain`: non-empty, no whitespace or control characters, and
all characters alphanumeric or `-`/`.`/`_`. -/
def validate_domain (domain : Str) : Option HostsError :=
  if domain = [] then some (.invalidDomain "empty domain".data)
  else if domain.any (fun c => rustIsWhitespace c || rustIsControl c) then
    some (.invalidDomain ("contains invalid characters: ".data ++ domain))
  else if
    !domain.all (fun c =>
      rustIsAlphanumeric c || c = '-' || c = '.' || c = '_') then
    some (.invalidDomain ("invalid hostname format: ".data ++ domain))
  else none

instance exceptDecEq {ε α : Type} [DecidableEq ε] [DecidableEq α] :
    DecidableEq (Except ε α) := fun x y =>
  match x, y with
  | .ok a, .ok b =>
    if h : a = b then isTrue (by rw [h])
    else isFalse (by intro he; cases he; exact h rfl)
  | .error a, .error b =>
    if h : a = b then isTrue (by rw [h])
    else isFalse (by intro he; cases he; exact h rfl)
  | .ok _, .error _ => isFalse (by intro he; cases he)
  | .error _, .ok _ => isFalse (by intro he; cases he)

/-- Outcome of a mutation: the error or the content written, plus whether the
hosts file was opened for writing. -/
structure OpResult where
  outcome : Except HostsError Str
  opened : Bool
deriving DecidableEq

/-- Outcome of a counting batch mutation. -/
structure BatchResult where
  outcome : Except HostsError (Str × ℕ)
  opened : Bool
deriving DecidableEq

/-- `HostsManager::write_binding_to_path`. -/
def write_binding (content domain ip : Str) : OpResult :=
  match validate_ip ip with
  | some e => ⟨.error e, false⟩
  | none =>
    match validate_domain domain with
    | some e => ⟨.error e, false⟩
    | none =>
      let p := parseContent (stripBom content)
      ⟨.ok (render { p with bindings := insertB domain ip p.bindings }), true⟩

/-- Validation loop of `write_bindings_batch_to_path`: `validate_ip` then
`validate_domain` for each binding, first error wins. -/
def validateBatch : List (Str × Str) → Option HostsError
  | [] => none
  | (d, ip) :: rest =>
    match validate_ip ip with
    | some e => some e
    | none =>
      match validate_domain d with
      | some e => some e
      | none => validateBatch rest

/-- `HostsManager::write_bindings_batch_to_path`; the pairs are
`(domain, ip)` and the returned count is incremented once per submitted
binding. -/
def write_bindings_batch (content : Str) (bs : List (Str × Str)) :
    BatchResult :=
  if bs = [] then ⟨.ok (content, 0), false⟩
  else
    match validateBatch bs with
    | some e => ⟨.error e, false⟩
    | none =>
      let p := parseContent (stripBom content)
      let step := fun (acc : Bindings × ℕ) (b : Str × Str) =>
        (insertB b.1 b.2 acc.1, acc.2 + 1)
      let res := bs.foldl step (p.bindings, 0)
      ⟨.ok (render { p with bindings := res.1 }, res.2), true⟩

/-- `HostsManager::clear_binding_from_path` (no validation). -/
def clear_binding (content domain : Str) : OpResult :=
  let p := parseContent (stripBom content)
  ⟨.ok (render { p with bindings := removeB domain p.bindings }), true⟩

/-- Deduplicated domain set of `clear_bindings_batch_from_path`
(`HashSet<&str>`), modelled as first-occurrence deduplication; removals
commute, so iteration order is irrelevant. -/
def dedupStrs : List Str → List Str
  | [] => []
  | d :: rest =>
    if d ∈ rest then dedupStrs rest else d :: dedupStrs rest

/-- `HostsManager::clear_bindings_batch_from_path`: removes each distinct
domain and counts the removals that found a binding. -/
def clear_bindings_batch (content : Str) (domains : List Str) : BatchResult :=
  if domains = [] then ⟨.ok (content, 0), false⟩
  else
    let p := parseContent (stripBom content)
    let dset := dedupStrs domains
    let removed := dset.countP (fun d => p.bindings.any (fun q => q.1 = d))
    let bindings := dset.foldl (fun m d => removeB d m) p.bindings
    ⟨.ok (render { p with bindings := bindings }, removed), true⟩

/-- `HostsManager::clear_all_anyfast_bindings_from_path`. -/
def clear_all_anyfast_bindings (content : Str) : BatchResult :=
  let p := parseContent (stripBom content)
  ⟨.ok (render { p with bindings := [] }, p.bindings.length), true⟩

/-- One mutation of the hosts file. -/
inductive HostsOp where
  | write (domain ip : Str)
  | writeBatch (bs : List (Str × Str))
  | clear (domain : Str)
  | clearBatch (domains : List Str)
  | clearAll
deriving DecidableEq

/-- Apply one operation to the file content; when the operation fails
validation (or is an empty batch) the file is not rewritten. -/
def applyOp (c : Str) : HostsOp → Str
  | .write d ip =>
    match (write_binding c d ip).outcome with
    | .ok c' => c'
    | .error _ => c
  | .writeBatch bs =>
    match (write_bindings_batch c bs).outcome with
    | .ok (c', _) => c'
    | .error _ => c
  | .clear d =>
    match (clear_binding c d).outcome with
    | .ok c' => c'
    | .error _ => c
  | .clearBatch ds =>
    match (clear_bindings_batch c ds).outcome with
    | .ok (c', _) => c'
    | .error _ => c
  | .clearAll =>
    match (clear_all_anyfast_bindings c).outcome with
    | .ok (c', _) => c'
    | .error _ => c

/-- Apply a sequence of operations left to right. -/
def applyOps (c : Str) (ops : List HostsOp) : Str :=
  ops.foldl applyOp c

/-! ### The non-managed portion of a hosts file

The specification's invariant speaks about the content outside every
`# BEGIN anyFAST`/`# END anyFAST` block, excluding legacy `# anyFAST`
sentinel lines.  `nmGo` extracts those lines with the same marker state
machine that `parse` uses. -/

/-- The in-block state after processing a list of lines. -/
def nmState (inb : Bool) : List Str → Bool
  | [] => inb
  | l :: ls =>
    if rustTrim l = MARKER_BEGIN then nmState true ls
    else if rustTrim l = MARKER_END then nmState false ls
    else nmState inb ls

/-- The lines outside every managed block, excluding marker lines and legacy
sentinel lines. -/
def nmGo (inb : Bool) : List Str → List Str
  | [] => []
  | l :: ls =>
    if rustTrim l = MARKER_BEGIN then nmGo true ls
    else if rustTrim l = MARKER_END then nmGo false ls
    else if inb then nmGo inb ls
    else if isLegacy l then nmGo inb ls
    else l :: nmGo inb ls

/-- The non-managed lines of a hosts file content. -/
def nonManagedLines (c : Str) : List Str := nmGo false (linesOf c)

/-- A line that the scan keeps when outside a block: not a marker and not a
legacy sentinel line. -/
def keepOutside (l : Str) : Prop :=
  rustTrim l ≠ MARKER_BEGIN ∧ rustTrim l ≠ MARKER_END ∧ isLegacy l = false

theorem ME_ne_MB : MARKER_END ≠ MARKER_BEGIN := by decide

theorem rustTrim_MB : rustTrim MARKER_BEGIN = MARKER_BEGIN := by decide

theorem rustTrim_ME : rustTrim MARKER_END = MARKER_END := by decide

theorem nmGo_append (xs : List Str) :
    ∀ (inb : Bool) (ys : List Str),
      nmGo inb (xs ++ ys) = nmGo inb xs ++ nmGo (nmState inb xs) ys := by
  induction xs with
  | nil => intro inb ys; simp [nmGo, nmState]
  | cons l ls ih =>
    intro inb ys
    by_cases h1 : rustTrim l = MARKER_BEGIN
    · simp [nmGo, nmState, h1, ih]
    · by_cases h2 : rustTrim l = MARKER_END
      · simp [nmGo, nmState, h1, h2, ih, ME_ne_MB]
      · by_cases h3 : inb
        · simp [nmGo, nmState, h1, h2, h3, ih]
        · by_cases h4 : isLegacy l = true
          · simp [nmGo, nmState, h1, h2, h3, h4, ih]
          · simp [nmGo, nmState, h1, h2, h3, h4, ih]

theorem nmGo_all_keep (A : List Str) (h : ∀ l ∈ A, keepOutside l) :
    nmGo false A = A ∧ nmState false A = false := by
  induction A with
  | nil => simp [nmGo, nmState]
  | cons l ls ih =>
    obtain ⟨h1, h2, h3⟩ := h l (by simp)
    have ih' := ih (fun x hx => h x (by simp [hx]))
    simp [nmGo, nmState, h1, h2, h3, ih'.1, ih'.2]

theorem nmGo_no_marker (B : List Str)
    (h : ∀ l ∈ B, rustTrim l ≠ MARKER_BEGIN ∧ rustTrim l ≠ MARKER_END) :
    nmGo false B = B.filter (fun l => !isLegacy l) := by
  induction B with
  | nil => simp [nmGo]
  | cons l ls ih =>
    obtain ⟨h1, h2⟩ := h l (by simp)
    have ih' := ih (fun x hx => h x (by simp [hx]))
    by_cases h4 : isLegacy l = true
    · simp [nmGo, List.filter, h1, h2, h4, ih']
    · simp [nmGo, List.filter, h1, h2, h4, ih', eq_false_of_ne_true h4]

theorem pg_before_true_nil :
    ∀ (ls : List Str) (inb : Bool), (parseGo inb true ls).before = [] := by
  intro ls
  induction ls with
  | nil => intro inb; simp [parseGo]
  | cons l ls ih =>
    intro inb
    by_cases h1 : rustTrim l = MARKER_BEGIN
    · simp [parseGo, h1, ih]
    · by_cases h2 : rustTrim l = MARKER_END
      · simp [parseGo, h1, h2, ih, ME_ne_MB]
      · cases inb <;> simp [parseGo, h1, h2, ih]

theorem pg_before_keep :
    ∀ (ls : List Str) (inb found : Bool),
      ∀ l ∈ (parseGo inb found ls).before, keepOutside l := by
  intro ls
  induction ls with
  | nil => intro inb found l hl; simp [parseGo] at hl
  | cons x ls ih =>
    intro inb found l hl
    by_cases h1 : rustTrim x = MARKER_BEGIN
    · simp only [parseGo, if_pos h1] at hl
      exact ih true true l hl
    · by_cases h2 : rustTrim x = MARKER_END
      · simp only [parseGo, if_neg h1, if_pos h2] at hl
        exact ih false found l hl
      · cases inb
        · cases found
          · by_cases h4 : isLegacy x = true
            · simp [parseGo, h1, h2, h4] at hl
              exact ih false false l hl
            · simp [parseGo, h1, h2, h4] at hl
              rcases hl with hl | hl
              · subst hl
                exact ⟨h1, h2, eq_false_of_ne_true h4⟩
              · exact ih false false l hl
          · simp [parseGo, h1, h2] at hl
            exact ih false true l hl
        · simp [parseGo, h1, h2] at hl
          exact ih true found l hl

theorem pg_after_unclosed_no_marker :
    ∀ (ls : List Str) (inb found : Bool),
      (∀ l ∈ (parseGo inb found ls).afterCore,
        rustTrim l ≠ MARKER_BEGIN ∧ rustTrim l ≠ MARKER_END) ∧
      (∀ l ∈ (parseGo inb found ls).unclosed,
        rustTrim l ≠ MARKER_BEGIN ∧ rustTrim l ≠ MARKER_END) := by
  intro ls
  induction ls with
  | nil => intro inb found; simp [parseGo]
  | cons x ls ih =>
    intro inb found
    by_cases h1 : rustTrim x = MARKER_BEGIN
    · simp only [parseGo, if_pos h1]
      exact ih true true
    · by_cases h2 : rustTrim x = MARKER_END
      · simp only [parseGo, if_neg h1, if_pos h2]
        exact ih false found
      · cases inb
        · cases found
          · by_cases h4 : isLegacy x = true
            · simp only [parseGo, if_neg h1, if_neg h2]
              simp only [Bool.false_eq_true, if_false, if_pos h4]
              exact ih false false
            · simp only [parseGo, if_neg h1, if_neg h2]
              simp only [Bool.false_eq_true, if_false, if_neg h4]
              exact ih false false
          · simp only [parseGo, if_neg h1, if_neg h2]
            simp only [Bool.false_eq_true, if_false, if_true]
            constructor
            · intro l hl
              rcases List.mem_cons.mp hl with hl | hl
              · subst hl; exact ⟨h1, h2⟩
              · exact (ih false true).1 l hl
            · exact (ih false true).2
        · simp only [parseGo, if_neg h1, if_neg h2, if_true]
          constructor
          · exact (ih true found).1
          · intro l hl
            rcases List.mem_cons.mp hl with hl | hl
            · subst hl; exact ⟨h1, h2⟩
            · exact (ih true found).2 l hl

theorem nmGo_corr_true :
    ∀ (ls : List Str) (inb : Bool),
      nmGo inb ls =
        ((parseGo inb true ls).afterCore).filter (fun l => !isLegacy l) := by
  intro ls
  induction ls with
  | nil => intro inb; simp [parseGo, nmGo]
  | cons x ls ih =>
    intro inb
    by_cases h1 : rustTrim x = MARKER_BEGIN
    · simp only [nmGo, parseGo, if_pos h1]
      exact ih true
    · by_cases h2 : rustTrim x = MARKER_END
      · simp only [nmGo, parseGo, if_neg h1, if_pos h2]
        exact ih false
      · cases inb
        · simp only [nmGo, parseGo, if_neg h1, if_neg h2]
          simp only [Bool.false_eq_true, if_false, if_true]
          by_cases h4 : isLegacy x = true
          · simp [h4, ih false]
          · simp [h4, ih false, eq_false_of_ne_true h4]
        · simp only [nmGo, parseGo, if_neg h1, if_neg h2, if_true]
          exact ih true

theorem nmGo_corr_false :
    ∀ (ls : List Str) (inb : Bool),
      nmGo inb ls =
        (parseGo inb false ls).before ++
          ((parseGo inb false ls).afterCore).filter (fun l => !isLegacy l) := by
  intro ls
  induction ls with
  | nil => intro inb; simp [parseGo, nmGo]
  | cons x ls ih =>
    intro inb
    by_cases h1 : rustTrim x = MARKER_BEGIN
    · simp only [nmGo, parseGo, if_pos h1]
      rw [pg_before_true_nil]
      simpa using nmGo_corr_true ls true
    · by_cases h2 : rustTrim x = MARKER_END
      · simp only [nmGo, parseGo, if_neg h1, if_pos h2]
        exact ih false
      · cases inb
        · simp only [nmGo, parseGo, if_neg h1, if_neg h2]
          simp only [Bool.false_eq_true, if_false]
          by_cases h4 : isLegacy x = true
          · simp [h4, ih false]
          · simp [h4, ih false]
        · simp only [nmGo, parseGo, if_neg h1, if_neg h2, if_true]
          exact ih true

theorem keepOutside_blank : keepOutside [] := by
  refine ⟨?_, ?_, ?_⟩ <;> decide

theorem nmGo_keep_prefix (A rest : List Str) (hA : ∀ l ∈ A, keepOutside l) :
    nmGo false (A ++ rest) = A ++ nmGo false rest := by
  rw [nmGo_append]
  obtain ⟨he, hs⟩ := nmGo_all_keep A hA
  rw [he, hs]

theorem nmGo_mb_cons (rest : List Str) (inb : Bool) :
    nmGo inb (MARKER_BEGIN :: rest) = nmGo true rest := by
  simp [nmGo, rustTrim_MB]

theorem nmGo_me_cons (rest : List Str) (inb : Bool) :
    nmGo inb (MARKER_END :: rest) = nmGo false rest := by
  simp [nmGo, rustTrim_ME, ME_ne_MB]

/-- Core preservation step: replacing the bindings of a parsed hosts file by
an arbitrary map and re-rendering keeps every non-managed line, in order. -/
theorem nm_render_sublist (ls : List Str) (B : Bindings) :
    List.Sublist (nmGo false ls)
      (nmGo false (renderLines { parseLines ls with bindings := B })) := by
  have hbefore := pg_before_keep ls false false
  have hafter := (pg_after_unclosed_no_marker ls false false).1
  have hunc := (pg_after_unclosed_no_marker ls false false).2
  rw [nmGo_corr_false ls false]
  set P := parseGo false false ls with hP
  set rec : List Str :=
    (if P.endInBlock = true ∧ P.unclosed ≠ [] then
      P.unclosed.filter recoveryKeep
    else []) with hrec
  have hrecsub : ∀ l ∈ rec, rustTrim l ≠ MARKER_BEGIN ∧ rustTrim l ≠ MARKER_END := by
    intro l hl
    rw [hrec] at hl
    split at hl
    · exact hunc l (List.mem_of_mem_filter hl)
    · simp at hl
  have hafterall :
      ∀ l ∈ P.afterCore ++ rec,
        rustTrim l ≠ MARKER_BEGIN ∧ rustTrim l ≠ MARKER_END := by
    intro l hl
    rcases List.mem_append.mp hl with hl | hl
    · exact hafter l hl
    · exact hrecsub l hl
  have hafterEq :
      nmGo false (P.afterCore ++ rec) =
        (P.afterCore).filter (fun l => !isLegacy l) ++
          rec.filter (fun l => !isLegacy l) := by
    rw [nmGo_no_marker _ hafterall, List.filter_append]
  have hparse : parseLines ls =
      { before := P.before, after := P.afterCore ++ rec,
        bindings := foldInserts P.inserts } := by
    rw [parseLines]
  by_cases hB : B = []
  · subst hB
    have hrl : renderLines { parseLines ls with bindings := [] } =
        P.before ++ (P.afterCore ++ rec) := by
      simp [renderLines, hparse]
    rw [hrl, nmGo_keep_prefix _ _ hbefore, hafterEq]
    exact (List.Sublist.refl _).append (List.sublist_append_left _ _)
  · set base : List Str :=
      if needsBlank P.before then P.before ++ [[]] else P.before with hbase
    have hrl : renderLines { parseLines ls with bindings := B } =
        (base ++ ([MARKER_BEGIN] ++ B.map bindingLine ++ [MARKER_END])) ++
          (P.afterCore ++ rec) := by
      rw [renderLines]
      simp only [hparse]
      rw [if_neg (by simpa using hB)]
    rw [hrl]
    have hbasekeep : ∀ l ∈ base, keepOutside l := by
      intro l hl
      rw [hbase] at hl
      split at hl
      · rcases List.mem_append.mp hl with hl | hl
        · exact hbefore l hl
        · simp at hl; subst hl; exact keepOutside_blank
      · exact hbefore l hl
    have hbasesub : List.Sublist P.before base := by
      rw [hbase]
      split
      · exact List.sublist_append_left _ _
      · exact List.Sublist.refl _
    have hassoc :
        (base ++ ([MARKER_BEGIN] ++ B.map bindingLine ++ [MARKER_END])) ++
            (P.afterCore ++ rec) =
          base ++ (MARKER_BEGIN ::
            (B.map bindingLine ++ (MARKER_END :: (P.afterCore ++ rec)))) := by
      simp
    rw [hassoc, nmGo_keep_prefix _ _ hbasekeep, nmGo_mb_cons, nmGo_append,
      nmGo_me_cons, hafterEq]
    refine List.Sublist.append hbasesub ?_
    refine List.Sublist.trans (List.sublist_append_left _
      (rec.filter (fun l => !isLegacy l))) ?_
    exact List.sublist_append_right _ _

/-! ### Character consumption of the IP parser

A string accepted by `rustParseIp` consists only of hexadecimal digits,
dots, and colons; this drives the normalization invariants (no whitespace,
no CR, no BOM in stored addresses). -/

def ipChar (c : Char) : Bool := isHexChar c || c = '.' || c = ':'

theorem readOctet_consumes {s : Str} {v : ℕ} {r : Str}
    (h : readOctet s = some (v, r)) :
    ∃ pre, s = pre ++ r ∧ ∀ c ∈ pre, ipChar c = true := by
  unfold readOctet at h
  split at h
  · cases h
  · split at h
    · cases h
    · split at h
      · cases h
      · split at h
        · injection h with h'
          injection h' with h1 h2
          subst h2
          refine ⟨s.takeWhile isDigitChar, ?_, ?_⟩
          · rw [List.takeWhile_append_dropWhile]
          · intro c hc
            have := List.mem_takeWhile_imp hc
            simp [ipChar, isHexChar, this]
        · cases h

theorem expectChar_consumes {ch : Char} {s r : Str}
    (h : expectChar ch s = some r) : s = ch :: r := by
  unfold expectChar at h
  split at h
  · split at h
    · rename_i hx
      injection h with h'
      subst h'
      rw [hx]
    · cases h
  · cases h

theorem readIpv4_consumes {s : Str} {q : ℕ × ℕ × ℕ × ℕ} {r : Str}
    (h : readIpv4 s = some (q, r)) :
    ∃ pre, s = pre ++ r ∧ ∀ c ∈ pre, ipChar c = true := by
  unfold readIpv4 at h
  rcases h1 : readOctet s with _ | ⟨a, s1⟩
  · rw [h1] at h; exact Option.noConfusion h
  rw [h1] at h; dsimp only at h
  rcases h2 : expectChar '.' s1 with _ | s2
  · rw [h2] at h; exact Option.noConfusion h
  rw [h2] at h; dsimp only at h
  rcases h3 : readOctet s2 with _ | ⟨b, s3⟩
  · rw [h3] at h; exact Option.noConfusion h
  rw [h3] at h; dsimp only at h
  rcases h4 : expectChar '.' s3 with _ | s4
  · rw [h4] at h; exact Option.noConfusion h
  rw [h4] at h; dsimp only at h
  rcases h5 : readOctet s4 with _ | ⟨c, s5⟩
  · rw [h5] at h; exact Option.noConfusion h
  rw [h5] at h; dsimp only at h
  rcases h6 : expectChar '.' s5 with _ | s6
  · rw [h6] at h; exact Option.noConfusion h
  rw [h6] at h; dsimp only at h
  rcases h7 : readOctet s6 with _ | ⟨d, s7⟩
  · rw [h7] at h; exact Option.noConfusion h
  rw [h7] at h; dsimp only at h
  injection h with h'
  injection h' with hq hr
  subst hr
  obtain ⟨p1, e1, c1⟩ := readOctet_consumes h1
  have e2 := expectChar_consumes h2
  obtain ⟨p3, e3, c3⟩ := readOctet_consumes h3
  have e4 := expectChar_consumes h4
  obtain ⟨p5, e5, c5⟩ := readOctet_consumes h5
  have e6 := expectChar_consumes h6
  obtain ⟨p7, e7, c7⟩ := readOctet_consumes h7
  refine ⟨p1 ++ ('.' :: (p3 ++ ('.' :: (p5 ++ ('.' :: p7))))), ?_, ?_⟩
  · rw [e1, e2, e3, e4, e5, e6, e7]
    simp
  · intro x hx
    rcases List.mem_append.mp hx with hx | hx
    · exact c1 x hx
    rcases List.mem_cons.mp hx with hx | hx
    · subst hx; decide
    rcases List.mem_append.mp hx with hx | hx
    · exact c3 x hx
    rcases List.mem_cons.mp hx with hx | hx
    · subst hx; decide
    rcases List.mem_append.mp hx with hx | hx
    · exact c5 x hx
    rcases List.mem_cons.mp hx with hx | hx
    · subst hx; decide
    exact c7 x hx

theorem readGroup16_consumes {s : Str} {v : ℕ} {r : Str}
    (h : readGroup16 s = some (v, r)) :
    ∃ pre, s = pre ++ r ∧ ∀ c ∈ pre, ipChar c = true := by
  unfold readGroup16 at h
  split at h
  · cases h
  · split at h
    · cases h
    · injection h with h'
      injection h' with h1 h2
      subst h2
      refine ⟨s.takeWhile isHexChar, ?_, ?_⟩
      · rw [List.takeWhile_append_dropWhile]
      · intro c hc
        have := List.mem_takeWhile_imp hc
        simp [ipChar, this]

theorem sepThen_consumes {α : Type} {i : ℕ} {inner : Str → Option (α × Str)}
    {s r : Str} {v : α}
    (hinner : ∀ {s' r' : Str} {v' : α}, inner s' = some (v', r') →
      ∃ pre, s' = pre ++ r' ∧ ∀ c ∈ pre, ipChar c = true)
    (h : sepThen i inner s = some (v, r)) :
    ∃ pre, s = pre ++ r ∧ ∀ c ∈ pre, ipChar c = true := by
  unfold sepThen at h
  split at h
  · exact hinner h
  · split at h
    · obtain ⟨pre, he, hc⟩ := hinner h
      refine ⟨':' :: pre, by rw [he, List.cons_append], ?_⟩
      intro c hc'
      rcases List.mem_cons.mp hc' with hc' | hc'
      · subst hc'; decide
      · exact hc c hc'
    · cases h

theorem readGroupsAux_consumes {limit : ℕ} :
    ∀ (fuel i : ℕ) (s : Str) {n : ℕ} {b : Bool} {r : Str},
      readGroupsAux limit fuel i s = (n, b, r) →
      ∃ pre, s = pre ++ r ∧ ∀ c ∈ pre, ipChar c = true := by
  intro fuel
  induction fuel with
  | zero =>
    intro i s n b r h
    unfold readGroupsAux at h
    injection h with h1 h'
    injection h' with h2 h3
    exact ⟨[], by simp [h3], by simp⟩
  | succ fuel ih =>
    intro i s n b r h
    unfold readGroupsAux at h
    split at h
    · split at h
      · rename_i heq
        injection h with h1 h'
        injection h' with h2 h3
        subst h3
        split at heq
        · exact sepThen_consumes (fun h => readIpv4_consumes h) heq
        · cases heq
      · split at h
        · rename_i heq
          obtain ⟨pre1, e1, c1⟩ :=
            sepThen_consumes (fun h => readGroup16_consumes h) heq
          obtain ⟨pre2, e2, c2⟩ := ih _ _ h
          refine ⟨pre1 ++ pre2, ?_, ?_⟩
          · rw [e1, e2]; simp
          · intro c hc
            rcases List.mem_append.mp hc with hc | hc
            · exact c1 c hc
            · exact c2 c hc
        · injection h with h1 h'
          injection h' with h2 h3
          exact ⟨[], by simp [h3], by simp⟩
    · injection h with h1 h'
      injection h' with h2 h3
      exact ⟨[], by simp [h3], by simp⟩

theorem rustParseIp_chars {s : Str} (h : rustParseIp s = true) :
    ∀ c ∈ s, ipChar c = true := by
  rw [rustParseIp, Bool.or_eq_true] at h
  rcases h with h | h
  · unfold parse_ipv4 at h
    rcases hi : readIpv4 s with _ | ⟨q, r⟩ <;> rw [hi] at h
    · cases h
    · rcases r with _ | _
      · obtain ⟨pre, he, hc⟩ := readIpv4_consumes hi
        simp only [List.append_nil] at he
        subst he
        exact hc
      · cases h
  · unfold parse_ipv6 at h
    rcases hg : readGroupsAux 8 8 0 s with ⟨n, b, r⟩
    rw [hg] at h
    obtain ⟨pre1, e1, c1⟩ := readGroupsAux_consumes 8 0 s hg
    dsimp only at h
    split at h
    · have hr : r = [] := by simpa using h
      subst hr
      simp only [List.append_nil] at e1
      subst e1
      exact c1
    · split at h
      · cases h
      · split at h
        · rename_i r2
          rcases hg2 : readGroupsAux (8 - (n + 1)) (8 - (n + 1)) 0 r2 with ⟨n2, b2, r3⟩
          rw [hg2] at h
          dsimp only at h
          have hr3 : r3 = [] := by simpa using h
          subst hr3
          obtain ⟨pre2, e2, c2⟩ := readGroupsAux_consumes _ 0 r2 hg2
          simp only [List.append_nil] at e2
          subst e2
          subst e1
          intro c hc
          rcases List.mem_append.mp hc with hc | hc
          · exact c1 c hc
          · rcases List.mem_cons.mp hc with hc | hc
            · subst hc; decide
            · rcases List.mem_cons.mp hc with hc | hc
              · subst hc; decide
              · exact c2 c hc
        · cases h

/-! ### Structural lemmas about lines, words and trimming -/

theorem splitNl_ne_nil (s : Str) : splitNl s ≠ [] := by
  cases s with
  | nil => simp [splitNl]
  | cons c rest =>
    by_cases h : c = '\n'
    · simp [splitNl, h]
    · simp only [splitNl, if_neg h]
      split <;> simp

theorem mem_splitNl_no_nl : ∀ (s : Str) (p : Str), p ∈ splitNl s → '\n' ∉ p := by
  intro s
  induction s with
  | nil => intro p hp; simp [splitNl] at hp; simp [hp]
  | cons c rest ih =>
    intro p hp
    by_cases h : c = '\n'
    · simp only [splitNl, if_pos h, List.mem_cons] at hp
      rcases hp with hp | hp
      · simp [hp]
      · exact ih p hp
    · simp only [splitNl, if_neg h] at hp
      rcases hs : splitNl rest with _ | ⟨hd, tl⟩
      · exact absurd hs (splitNl_ne_nil rest)
      · rw [hs] at hp
        rcases List.mem_cons.mp hp with hp | hp
        · subst hp
          intro hmem
          rcases List.mem_cons.mp hmem with hmem | hmem
          · exact h hmem.symm
          · exact ih hd (by rw [hs]; simp) hmem
        · exact ih p (by rw [hs]; simp [hp])

theorem mem_splitNl_subset :
    ∀ (s : Str) (p : Str), p ∈ splitNl s → ∀ c ∈ p, c ∈ s := by
  intro s
  induction s with
  | nil => intro p hp c hc; simp [splitNl] at hp; subst hp; simp at hc
  | cons x rest ih =>
    intro p hp c hc
    by_cases h : x = '\n'
    · simp only [splitNl, if_pos h, List.mem_cons] at hp
      rcases hp with hp | hp
      · subst hp; simp at hc
      · exact List.mem_cons.mpr (Or.inr (ih p hp c hc))
    · simp only [splitNl, if_neg h] at hp
      rcases hs : splitNl rest with _ | ⟨hd, tl⟩
      · exact absurd hs (splitNl_ne_nil rest)
      · rw [hs] at hp
        rcases List.mem_cons.mp hp with hp | hp
        · subst hp
          rcases List.mem_cons.mp hc with hc | hc
          · simp [hc]
          · exact List.mem_cons.mpr
              (Or.inr (ih hd (by rw [hs]; simp) c hc))
        · exact List.mem_cons.mpr (Or.inr (ih p (by rw [hs]; simp [hp]) c hc))

theorem stripTailCr_subset {l : Str} {c : Char} (h : c ∈ stripTailCr l) :
    c ∈ l := by
  unfold stripTailCr at h
  split at h
  · exact (List.dropLast_sublist l).subset h
  · exact h

theorem getLastMem {α : Type} {l : List α} {a : α} (h : l.getLast? = some a) :
    a ∈ l := by
  have hx : a ∈ l.getLast? := by rw [h]; rfl
  obtain ⟨hne, he⟩ := List.mem_getLast?_eq_getLast hx
  subst he
  exact List.getLast_mem hne

theorem mem_linesOf_cases {content : Str} {l : Str} (hl : l ∈ linesOf content) :
    (∃ p ∈ splitNl content, l = stripTailCr p) ∨ l ∈ splitNl content := by
  unfold linesOf at hl
  rcases hg : (splitNl content).getLast? with _ | lastPiece <;> rw [hg] at hl
  · simp only [List.mem_map] at hl
    obtain ⟨p, hp, he⟩ := hl
    exact Or.inl ⟨p, (List.dropLast_sublist _).subset hp, he.symm⟩
  · dsimp only at hl
    split at hl
    · simp only [List.mem_map] at hl
      obtain ⟨p, hp, he⟩ := hl
      exact Or.inl ⟨p, (List.dropLast_sublist _).subset hp, he.symm⟩
    · rcases List.mem_append.mp hl with hl | hl
      · simp only [List.mem_map] at hl
        obtain ⟨p, hp, he⟩ := hl
        exact Or.inl ⟨p, (List.dropLast_sublist _).subset hp, he.symm⟩
      · simp only [List.mem_singleton] at hl
        subst hl
        exact Or.inr (getLastMem hg)

theorem mem_linesOf_subset {content : Str} {l : Str} (hl : l ∈ linesOf content) :
    ∀ c ∈ l, c ∈ content := by
  intro c hc
  rcases mem_linesOf_cases hl with ⟨p, hp, he⟩ | hp
  · subst he
    exact mem_splitNl_subset content p hp c (stripTailCr_subset hc)
  · exact mem_splitNl_subset content l hp c hc

theorem mem_linesOf_no_nl {content : Str} {l : Str} (hl : l ∈ linesOf content) :
    '\n' ∉ l := by
  rcases mem_linesOf_cases hl with ⟨p, hp, he⟩ | hp
  · subst he
    intro hmem
    exact mem_splitNl_no_nl content p hp (stripTailCr_subset hmem)
  · exact mem_splitNl_no_nl content l hp

theorem splitNl_no_nl {l : Str} (h : '\n' ∉ l) : splitNl l = [l] := by
  induction l with
  | nil => simp [splitNl]
  | cons c rest ih =>
    have hc : c ≠ '\n' := fun he => h (by simp [he])
    have hr : '\n' ∉ rest := fun hm => h (by simp [hm])
    simp only [splitNl, if_neg hc, ih hr]

theorem splitNl_append_cons {l : Str} (t : Str) (h : '\n' ∉ l) :
    splitNl (l ++ '\n' :: t) = l :: splitNl t := by
  induction l with
  | nil => simp [splitNl]
  | cons c rest ih =>
    have hc : c ≠ '\n' := fun he => h (by simp [he])
    have hr : '\n' ∉ rest := fun hm => h (by simp [hm])
    simp only [List.cons_append, splitNl, if_neg hc, List.append_eq]
    rw [ih hr]

theorem stripTailCr_of_no_cr {l : Str} (h : '\r' ∉ l) : stripTailCr l = l := by
  unfold stripTailCr
  split
  · rename_i hg
    exact absurd (getLastMem hg) h
  · rfl

theorem linesOf_cons_line {l : Str} (t : Str) (h : '\n' ∉ l) :
    linesOf (l ++ '\n' :: t) = stripTailCr l :: linesOf t := by
  unfold linesOf
  rw [splitNl_append_cons t h]
  rcases hs : splitNl t with _ | ⟨hd, tl⟩
  · exact absurd hs (splitNl_ne_nil t)
  · simp only [List.getLast?_cons_cons, List.dropLast_cons₂, List.map_cons]
    rcases hg : (hd :: tl).getLast? with _ | lp
    · simp at hg
    · dsimp only
      by_cases hlp : lp = [] <;> simp [hlp]

theorem linesOf_joinNl :
    ∀ (R : List Str), (∀ l ∈ R, '\n' ∉ l) → (∀ l ∈ R, '\r' ∉ l) →
      linesOf (joinNl R) =
        if R.getLast? = some [] then R.dropLast else R := by
  intro R
  induction R with
  | nil => intro _ _; simp [joinNl, linesOf, splitNl]
  | cons l rest ih =>
    intro hnl hcr
    cases rest with
    | nil =>
      simp only [joinNl]
      rw [linesOf, splitNl_no_nl (hnl l (by simp))]
      by_cases hl : l = []
      · subst hl; simp
      · simp [hl]
    | cons l2 rest2 =>
      have hstep : joinNl (l :: l2 :: rest2) = l ++ '\n' :: joinNl (l2 :: rest2) := by
        simp [joinNl]
      rw [hstep, linesOf_cons_line _ (hnl l (by simp)),
        stripTailCr_of_no_cr (hcr l (by simp)),
        ih (fun x hx => hnl x (by simp [hx])) (fun x hx => hcr x (by simp [hx]))]
      rcases hg : (l2 :: rest2).getLast? with _ | lastPiece
      · simp at hg
      · simp only [List.getLast?_cons_cons, hg]
        split <;> simp [List.dropLast_cons₂]

theorem mem_wordsGo_chars :
    ∀ (s cur : Str) (w : Str), w ∈ wordsGo cur s → ∀ c ∈ w, c ∈ cur ∨ c ∈ s := by
  intro s
  induction s with
  | nil =>
    intro cur w hw c hc
    simp only [wordsGo] at hw
    split at hw
    · simp at hw
    · simp only [List.mem_singleton] at hw
      subst hw
      exact Or.inl (List.mem_reverse.mp hc)
  | cons x rest ih =>
    intro cur w hw c hc
    simp only [wordsGo] at hw
    split at hw
    · split at hw
      · rcases ih [] w hw c hc with h | h
        · simp at h
        · exact Or.inr (by simp [h])
      · rcases List.mem_cons.mp hw with hw | hw
        · subst hw
          exact Or.inl (List.mem_reverse.mp hc)
        · rcases ih [] w hw c hc with h | h
          · simp at h
          · exact Or.inr (by simp [h])
    · rcases ih (x :: cur) w hw c hc with h | h
      · rcases List.mem_cons.mp h with h | h
        · exact Or.inr (by simp [h])
        · exact Or.inl h
      · exact Or.inr (by simp [h])

theorem mem_words_chars {s w : Str} (hw : w ∈ words s) {c : Char} (hc : c ∈ w) :
    c ∈ s := by
  rcases mem_wordsGo_chars s [] w hw c hc with h | h
  · simp at h
  · exact h

theorem mem_rustTrim {l : Str} {c : Char} (h : c ∈ rustTrim l) : c ∈ l := by
  unfold rustTrim at h
  have h1 := List.mem_reverse.mp h
  have h2 := (List.dropWhile_sublist _).subset h1
  have h3 := List.mem_reverse.mp h2
  exact (List.dropWhile_sublist _).subset h3

theorem mem_lineInserts_chars {l : Str} {p : Str × Str}
    (hp : p ∈ lineInserts l) {c : Char} (hc : c ∈ p.1 ∨ c ∈ p.2) : c ∈ l := by
  unfold lineInserts at hp
  split at hp
  · rename_i p0 p1 rest heq
    simp only [List.mem_singleton] at hp
    subst hp
    rcases hc with hc | hc
    · exact mem_rustTrim (mem_words_chars (by rw [heq]; simp) hc)
    · exact mem_rustTrim (mem_words_chars (by rw [heq]; simp) hc)
  · simp at hp

theorem mem_joinNl {R : List Str} {c : Char} (h : c ∈ joinNl R) :
    c = '\n' ∨ ∃ l ∈ R, c ∈ l := by
  induction R with
  | nil => simp [joinNl] at h
  | cons l rest ih =>
    cases rest with
    | nil =>
      simp only [joinNl] at h
      exact Or.inr ⟨l, by simp, h⟩
    | cons l2 rest2 =>
      have hj : joinNl (l :: l2 :: rest2) = l ++ '\n' :: joinNl (l2 :: rest2) := by
        simp [joinNl]
      rw [hj] at h
      rcases List.mem_append.mp h with h | h
      · exact Or.inr ⟨l, by simp, h⟩
      · rcases List.mem_cons.mp h with h | h
        · exact Or.inl h
        · rcases ih h with h | ⟨l', hl', hc'⟩
          · exact Or.inl h
          · exact Or.inr ⟨l', by simp [hl'], hc'⟩

theorem pg_mem :
    ∀ (ls : List Str) (inb found : Bool),
      (∀ l ∈ (parseGo inb found ls).before, l ∈ ls) ∧
      (∀ l ∈ (parseGo inb found ls).afterCore, l ∈ ls) ∧
      (∀ l ∈ (parseGo inb found ls).unclosed, l ∈ ls) ∧
      (∀ p ∈ (parseGo inb found ls).inserts, ∃ l ∈ ls, p ∈ lineInserts l) := by
  intro ls
  induction ls with
  | nil => intro inb found; simp [parseGo]
  | cons x ls ih =>
    intro inb found
    have ihmono :
        ∀ (i f : Bool),
          (∀ l ∈ (parseGo i f ls).before, l ∈ x :: ls) ∧
          (∀ l ∈ (parseGo i f ls).afterCore, l ∈ x :: ls) ∧
          (∀ l ∈ (parseGo i f ls).unclosed, l ∈ x :: ls) ∧
          (∀ p ∈ (parseGo i f ls).inserts, ∃ l ∈ x :: ls, p ∈ lineInserts l) := by
      intro i f
      obtain ⟨a, b, c, d⟩ := ih i f
      refine ⟨fun l hl => by simp [a l hl], fun l hl => by simp [b l hl],
        fun l hl => by simp [c l hl], fun p hp => ?_⟩
      obtain ⟨l, hl, hp'⟩ := d p hp
      exact ⟨l, by simp [hl], hp'⟩
    by_cases h1 : rustTrim x = MARKER_BEGIN
    · simp only [parseGo, if_pos h1]
      exact ihmono true true
    · by_cases h2 : rustTrim x = MARKER_END
      · simp only [parseGo, if_neg h1, if_pos h2]
        exact ihmono false found
      · cases inb
        · cases found
          · by_cases h4 : isLegacy x = true
            · simp only [parseGo, if_neg h1, if_neg h2]
              simp only [Bool.false_eq_true, if_false, if_pos h4]
              obtain ⟨a, b, c, d⟩ := ihmono false false
              refine ⟨a, b, c, fun p hp => ?_⟩
              rcases List.mem_append.mp hp with hp | hp
              · exact ⟨x, by simp, hp⟩
              · exact d p hp
            · simp only [parseGo, if_neg h1, if_neg h2]
              simp only [Bool.false_eq_true, if_false, if_neg h4]
              obtain ⟨a, b, c, d⟩ := ihmono false false
              refine ⟨fun l hl => ?_, b, c, d⟩
              rcases List.mem_cons.mp hl with hl | hl
              · simp [hl]
              · exact a l hl
          · simp only [parseGo, if_neg h1, if_neg h2]
            simp only [Bool.false_eq_true, if_false, if_true]
            obtain ⟨a, b, c, d⟩ := ihmono false true
            refine ⟨a, fun l hl => ?_, c, d⟩
            rcases List.mem_cons.mp hl with hl | hl
            · simp [hl]
            · exact b l hl
        · simp only [parseGo, if_neg h1, if_neg h2, if_true]
          obtain ⟨a, b, c, d⟩ := ihmono true found
          refine ⟨a, b, fun l hl => ?_, fun p hp => ?_⟩
          · rcases List.mem_cons.mp hl with hl | hl
            · simp [hl]
            · exact c l hl
          · rcases List.mem_append.mp hp with hp | hp
            · split at hp
              · exact ⟨x, by simp, hp⟩
              · simp at hp
            · exact d p hp

/-! ### Cleanliness: contents without CR and BOM characters

The first rewrite normalizes CRLF line endings to LF, drops a leading BOM,
and never re-introduces either; the preservation theorem is therefore stated
for contents free of `\r` and U+FEFF, and an explicit counterexample shows
why CR bytes themselves are not preserved. -/

def contentClean (s : Str) : Prop := '\r' ∉ s ∧ '﻿' ∉ s

def pairClean (q : Str × Str) : Prop :=
  ('\r' ∉ q.1 ∧ '﻿' ∉ q.1 ∧ '\n' ∉ q.1) ∧
  ('\r' ∉ q.2 ∧ '﻿' ∉ q.2 ∧ '\n' ∉ q.2)

/-- The non-empty lines of a line list; the preservation statement ignores
blank lines (the rewrite may insert one before the managed block and may
drop a trailing one). -/
def filterNE (ls : List Str) : List Str := ls.filter (fun l => !l.isEmpty)

theorem stripBom_of_clean {c : Str} (h : '﻿' ∉ c) : stripBom c = c := by
  unfold stripBom
  split
  · rename_i r
    exact absurd (by simp) h
  · rfl

theorem validate_domain_none_iff {d : Str} :
    validate_domain d = none ↔
      d ≠ [] ∧ (∀ c ∈ d, rustIsWhitespace c = false ∧ rustIsControl c = false) ∧
        (∀ c ∈ d, rustIsAlphanumeric c = true ∨ c = '-' ∨ c = '.' ∨ c = '_') := by
  unfold validate_domain
  split_ifs with h1 h2 h3
  · simp [h1]
  · simp only [reduceCtorEq, false_iff, not_and]
    intro hne hall
    obtain ⟨x, hx, hxw⟩ := List.any_eq_true.mp h2
    intro _
    rcases (Bool.or_eq_true _ _).mp hxw with hw | hw
    · have := (hall x hx).1
      rw [hw] at this
      cases this
    · have := (hall x hx).2
      rw [hw] at this
      cases this
  · simp only [reduceCtorEq, false_iff, not_and]
    intro hne _ hall
    have h3' : d.all
        (fun c => rustIsAlphanumeric c || c = '-' || c = '.' || c = '_') = false := by
      simpa using h3
    rw [List.all_eq_false] at h3'
    obtain ⟨x, hx, hxp⟩ := h3'
    have := hall x hx
    simp only [Bool.or_eq_true, decide_eq_true_eq, not_or] at hxp
    rcases this with h | h | h | h
    · exact hxp.1.1.1 h
    · exact hxp.1.1.2 (by simp [h])
    · exact hxp.1.2 (by simp [h])
    · exact hxp.2 (by simp [h])
  · simp only [true_iff]
    refine ⟨h1, ?_, ?_⟩
    · intro x hx
      have hxw : ¬ (rustIsWhitespace x || rustIsControl x) = true := fun hw =>
        h2 (List.any_eq_true.mpr ⟨x, hx, hw⟩)
      simp only [Bool.or_eq_true, not_or, Bool.not_eq_true] at hxw
      exact hxw
    · intro x hx
      have h3' : d.all
          (fun c => rustIsAlphanumeric c || c = '-' || c = '.' || c = '_') = true := by
        rcases hb : d.all
            (fun c => rustIsAlphanumeric c || c = '-' || c = '.' || c = '_') with _ | _
        · exact absurd (by simp [hb]) h3
        · rfl
      have := List.all_eq_true.mp h3' x hx
      simp only [Bool.or_eq_true, decide_eq_true_eq] at this
      tauto

theorem validate_domain_clean {d : Str} (h : validate_domain d = none) :
    '\r' ∉ d ∧ '﻿' ∉ d ∧ '\n' ∉ d := by
  obtain ⟨_, hwc, hform⟩ := validate_domain_none_iff.mp h
  refine ⟨fun hm => ?_, fun hm => ?_, fun hm => ?_⟩
  · have := (hwc '\r' hm).1
    rw [show rustIsWhitespace '\r' = true from by decide] at this
    cases this
  · rcases hform '﻿' hm with hh | hh | hh | hh
    · rw [show rustIsAlphanumeric '﻿' = false from by decide] at hh
      cases hh
    · cases hh
    · cases hh
    · cases hh
  · have := (hwc '\n' hm).1
    rw [show rustIsWhitespace '\n' = true from by decide] at this
    cases this

theorem rustParseIp_clean {ip : Str} (h : rustParseIp ip = true) :
    '\r' ∉ ip ∧ '﻿' ∉ ip ∧ '\n' ∉ ip := by
  refine ⟨fun hm => ?_, fun hm => ?_, fun hm => ?_⟩
  · have := rustParseIp_chars h '\r' hm
    rw [show ipChar '\r' = false from by decide] at this
    cases this
  · have := rustParseIp_chars h '﻿' hm
    rw [show ipChar '﻿' = false from by decide] at this
    cases this
  · have := rustParseIp_chars h '\n' hm
    rw [show ipChar '\n' = false from by decide] at this
    cases this

theorem mem_renderLines {p : ParsedHosts} {l : Str} (hl : l ∈ renderLines p) :
    l ∈ p.before ∨ l ∈ p.after ∨ l = [] ∨ l = MARKER_BEGIN ∨ l = MARKER_END ∨
      ∃ q ∈ p.bindings, l = bindingLine q := by
  unfold renderLines at hl
  rcases List.mem_append.mp hl with hl | hl
  · split at hl
    · exact Or.inl hl
    · rcases List.mem_append.mp hl with hl | hl
      · split at hl
        · rcases List.mem_append.mp hl with hl | hl
          · exact Or.inl hl
          · simp only [List.mem_singleton] at hl
            exact Or.inr (Or.inr (Or.inl hl))
        · exact Or.inl hl
      · rcases List.mem_append.mp hl with hl | hl
        · rcases List.mem_append.mp hl with hl | hl
          · simp only [List.mem_singleton] at hl
            exact Or.inr (Or.inr (Or.inr (Or.inl hl)))
          · simp only [List.mem_map] at hl
            obtain ⟨q, hq, he⟩ := hl
            exact Or.inr (Or.inr (Or.inr (Or.inr (Or.inr ⟨q, hq, he.symm⟩))))
        · simp only [List.mem_singleton] at hl
          exact Or.inr (Or.inr (Or.inr (Or.inr (Or.inl hl))))
  · exact Or.inr (Or.inl hl)

theorem mem_bindingLine {q : Str × Str} {x : Char} (hx : x ∈ bindingLine q) :
    x ∈ q.1 ∨ x ∈ q.2 ∨ x = '\t' ∨ x ∈ MARKER_LINE := by
  unfold bindingLine at hx
  rcases List.mem_append.mp hx with hx | hx
  · rcases List.mem_append.mp hx with hx | hx
    · exact Or.inr (Or.inl hx)
    · rcases List.mem_cons.mp hx with hx | hx
      · exact Or.inr (Or.inr (Or.inl hx))
      · exact Or.inl hx
  · rcases List.mem_cons.mp hx with hx | hx
    · exact Or.inr (Or.inr (Or.inl hx))
    · exact Or.inr (Or.inr (Or.inr hx))

theorem parseContent_lines_subset {c : Str} {l : Str}
    (hl : l ∈ (parseContent c).before ∨ l ∈ (parseContent c).after) :
    l ∈ linesOf c := by
  obtain ⟨hb, ha, hu, _⟩ := pg_mem (linesOf c) false false
  rcases hl with hl | hl
  · exact hb l hl
  · simp only [parseContent, parseLines] at hl
    rcases List.mem_append.mp hl with hl | hl
    · exact ha l hl
    · split at hl
      · exact hu l (List.mem_of_mem_filter hl)
      · simp at hl

theorem parseContent_pairs_clean {c : Str} (hc : contentClean c) :
    ∀ q ∈ (parseContent c).bindings, pairClean q := by
  intro q hq
  simp only [parseContent, parseLines] at hq
  rcases mem_foldl_insertB _ [] hq with hq | hq
  · simp at hq
  · obtain ⟨_, _, _, hins⟩ := pg_mem (linesOf c) false false
    obtain ⟨l, hl, hq'⟩ := hins q hq
    have hchar : ∀ x, (x ∈ q.1 ∨ x ∈ q.2) → x ∈ l := fun x hx =>
      mem_lineInserts_chars hq' hx
    have hsub : ∀ x, (x ∈ q.1 ∨ x ∈ q.2) → x ∈ c := fun x hx =>
      mem_linesOf_subset hl x (hchar x hx)
    have hnl : ∀ x, (x ∈ q.1 ∨ x ∈ q.2) → x ≠ '\n' := fun x hx he => by
      subst he
      exact mem_linesOf_no_nl hl (hchar _ hx)
    refine ⟨⟨fun hm => hc.1 (hsub _ (Or.inl hm)),
      fun hm => hc.2 (hsub _ (Or.inl hm)),
      fun hm => hnl _ (Or.inl hm) rfl⟩,
      ⟨fun hm => hc.1 (hsub _ (Or.inr hm)),
      fun hm => hc.2 (hsub _ (Or.inr hm)),
      fun hm => hnl _ (Or.inr hm) rfl⟩⟩

theorem renderLines_clean {c : Str} {B : Bindings} (hc : contentClean c)
    (hB : ∀ q ∈ B, pairClean q) :
    ∀ l ∈ renderLines { parseContent c with bindings := B },
      '\n' ∉ l ∧ '\r' ∉ l ∧ '﻿' ∉ l := by
  intro l hl
  rcases mem_renderLines hl with hl | hl | hl | hl | hl | ⟨q, hq, he⟩
  · have hsub : l ∈ linesOf c := parseContent_lines_subset (Or.inl hl)
    exact ⟨mem_linesOf_no_nl hsub,
      fun hm => hc.1 (mem_linesOf_subset hsub _ hm),
      fun hm => hc.2 (mem_linesOf_subset hsub _ hm)⟩
  · have hsub : l ∈ linesOf c := parseContent_lines_subset (Or.inr hl)
    exact ⟨mem_linesOf_no_nl hsub,
      fun hm => hc.1 (mem_linesOf_subset hsub _ hm),
      fun hm => hc.2 (mem_linesOf_subset hsub _ hm)⟩
  · subst hl; simp
  · subst hl; refine ⟨by decide, by decide, by decide⟩
  · subst hl; refine ⟨by decide, by decide, by decide⟩
  · subst he
    obtain ⟨⟨d1, d2, d3⟩, i1, i2, i3⟩ := hB q hq
    refine ⟨fun hm => ?_, fun hm => ?_, fun hm => ?_⟩ <;>
      rcases mem_bindingLine hm with hx | hx | hx | hx
    · exact d3 hx
    · exact i3 hx
    · cases hx
    · exact absurd hx (by decide)
    · exact d1 hx
    · exact i1 hx
    · cases hx
    · exact absurd hx (by decide)
    · exact d2 hx
    · exact i2 hx
    · cases hx
    · exact absurd hx (by decide)

theorem filterNE_nmGo_blank (st : Bool) : filterNE (nmGo st [[]]) = [] := by
  cases st <;> decide

theorem validate_ip_none_iff {ip : Str} :
    validate_ip ip = none ↔ rustParseIp ip = true := by
  unfold validate_ip
  split <;> rename_i h <;> simp [h]

/-- Rewriting with an arbitrary bindings map preserves the non-empty
non-managed lines and keeps the content free of CR and BOM characters. -/
theorem render_step {c : Str} {B : Bindings} (hc : contentClean c)
    (hB : ∀ q ∈ B, pairClean q) :
    contentClean (render { parseContent c with bindings := B }) ∧
    List.Sublist (filterNE (nonManagedLines c))
      (filterNE (nonManagedLines (render { parseContent c with bindings := B }))) := by
  have hlines := renderLines_clean hc hB
  constructor
  · constructor
    · intro hm
      rcases mem_joinNl hm with he | ⟨l, hl, hx⟩
      · exact absurd he (by decide)
      · exact (hlines l hl).2.1 hx
    · intro hm
      rcases mem_joinNl hm with he | ⟨l, hl, hx⟩
      · exact absurd he (by decide)
      · exact (hlines l hl).2.2 hx
  · have hnl : ∀ l ∈ renderLines { parseContent c with bindings := B }, '\n' ∉ l :=
      fun l hl => (hlines l hl).1
    have hcr : ∀ l ∈ renderLines { parseContent c with bindings := B }, '\r' ∉ l :=
      fun l hl => (hlines l hl).2.1
    have hbase : List.Sublist (nmGo false (linesOf c))
        (nmGo false (renderLines { parseContent c with bindings := B })) :=
      nm_render_sublist (linesOf c) B
    show List.Sublist (filterNE (nmGo false (linesOf c))) _
    unfold nonManagedLines render
    rw [linesOf_joinNl _ hnl hcr]
    split
    · rename_i hlast
      set R := renderLines { parseContent c with bindings := B } with hR
      have hRne : R ≠ [] := by
        intro he
        rw [he] at hlast
        simp at hlast
      have hsplit : R.dropLast ++ [[]] = R := by
        have h1 := List.dropLast_append_getLast hRne
        have h2 : R.getLast hRne = [] := by
          have := List.getLast?_eq_getLast_of_ne_nil hRne
          rw [hlast] at this
          exact (Option.some.inj this).symm
        rw [h2] at h1
        exact h1
      have hfeq : filterNE (nmGo false R) = filterNE (nmGo false R.dropLast) := by
        conv_lhs => rw [← hsplit]
        rw [nmGo_append]
        unfold filterNE
        rw [List.filter_append]
        have := filterNE_nmGo_blank (nmState false R.dropLast)
        unfold filterNE at this
        rw [this, List.append_nil]
      rw [← hfeq]
      exact hbase.filter _
    · exact hbase.filter _

theorem validateBatch_none :
    ∀ {bs : List (Str × Str)}, validateBatch bs = none →
      ∀ b ∈ bs, rustParseIp b.2 = true ∧ validate_domain b.1 = none := by
  intro bs
  induction bs with
  | nil => intro _ b hb; simp at hb
  | cons p rest ih =>
    intro h b hb
    obtain ⟨d, ip⟩ := p
    unfold validateBatch at h
    rcases h1 : validate_ip ip with _ | e
    · rw [h1] at h
      dsimp only at h
      rcases h2 : validate_domain d with _ | e
      · rw [h2] at h
        dsimp only at h
        rcases List.mem_cons.mp hb with hb | hb
        · subst hb
          exact ⟨validate_ip_none_iff.mp h1, h2⟩
        · exact ih h b hb
      · rw [h2] at h
        cases h
    · rw [h1] at h
      cases h

theorem batch_fold_fst :
    ∀ (bs : List (Str × Str)) (m : Bindings) (n : ℕ),
      (bs.foldl (fun acc b => (insertB b.1 b.2 acc.1, acc.2 + 1)) (m, n)).1 =
        bs.foldl (fun mm b => insertB b.1 b.2 mm) m := by
  intro bs
  induction bs with
  | nil => intro m n; rfl
  | cons p rest ih => intro m n; simp only [List.foldl_cons]; exact ih _ _

theorem batch_fold_snd :
    ∀ (bs : List (Str × Str)) (m : Bindings) (n : ℕ),
      (bs.foldl (fun acc b => (insertB b.1 b.2 acc.1, acc.2 + 1)) (m, n)).2 =
        n + bs.length := by
  intro bs
  induction bs with
  | nil => intro m n; simp
  | cons p rest ih =>
    intro m n
    simp only [List.foldl_cons, ih, List.length_cons]
    omega

theorem mem_foldl_removeB {q : Str × Str} :
    ∀ (ds : List Str) (m : Bindings),
      q ∈ ds.foldl (fun mm d => removeB d mm) m → q ∈ m := by
  intro ds
  induction ds with
  | nil => intro m h; simpa using h
  | cons d rest ih =>
    intro m h
    have := ih (removeB d m) h
    exact List.mem_of_mem_filter this

/-- Every hosts-file operation keeps the content clean and preserves the
non-empty non-managed lines as a subsequence. -/
theorem applyOp_step (c : Str) (op : HostsOp) (hc : contentClean c) :
    contentClean (applyOp c op) ∧
    List.Sublist (filterNE (nonManagedLines c))
      (filterNE (nonManagedLines (applyOp c op))) := by
  have hbom : stripBom c = c := stripBom_of_clean hc.2
  cases op with
  | write d ip =>
    rcases h1 : validate_ip ip with _ | e
    · rcases h2 : validate_domain d with _ | e
      · have happ : applyOp c (.write d ip) =
            render { parseContent c with
              bindings := insertB d ip (parseContent c).bindings } := by
          simp only [applyOp, write_binding]
          rw [h1, h2, hbom]
        rw [happ]
        refine render_step hc ?_
        intro q hq
        rcases mem_insertB hq with hq | hq
        · subst hq
          obtain ⟨a1, a2, a3⟩ := validate_domain_clean h2
          obtain ⟨b1, b2, b3⟩ := rustParseIp_clean (validate_ip_none_iff.mp h1)
          exact ⟨⟨a1, a2, a3⟩, ⟨b1, b2, b3⟩⟩
        · exact parseContent_pairs_clean hc q hq
      · have happ : applyOp c (.write d ip) = c := by
          simp only [applyOp, write_binding]
          rw [h1, h2]
        rw [happ]
        exact ⟨hc, List.Sublist.refl _⟩
    · have happ : applyOp c (.write d ip) = c := by
        simp only [applyOp, write_binding]
        rw [h1]
      rw [happ]
      exact ⟨hc, List.Sublist.refl _⟩
  | writeBatch bs =>
    by_cases hbs : bs = []
    · have happ : applyOp c (.writeBatch bs) = c := by
        simp only [applyOp, write_bindings_batch]
        rw [if_pos hbs]
      rw [happ]
      exact ⟨hc, List.Sublist.refl _⟩
    · rcases hv : validateBatch bs with _ | e
      · have happ : applyOp c (.writeBatch bs) =
            render { parseContent c with
              bindings := bs.foldl (fun mm b => insertB b.1 b.2 mm)
                (parseContent c).bindings } := by
          simp only [applyOp, write_bindings_batch]
          rw [if_neg hbs, hv, hbom, batch_fold_fst]
        rw [happ]
        refine render_step hc ?_
        intro q hq
        rcases mem_foldl_insertB bs _ hq with hq | hq
        · exact parseContent_pairs_clean hc q hq
        · obtain ⟨hip, hdom⟩ := validateBatch_none hv q hq
          obtain ⟨a1, a2, a3⟩ := validate_domain_clean hdom
          obtain ⟨b1, b2, b3⟩ := rustParseIp_clean hip
          exact ⟨⟨a1, a2, a3⟩, ⟨b1, b2, b3⟩⟩
      · have happ : applyOp c (.writeBatch bs) = c := by
          simp only [applyOp, write_bindings_batch]
          rw [if_neg hbs, hv]
        rw [happ]
        exact ⟨hc, List.Sublist.refl _⟩
  | clear d =>
    have happ : applyOp c (.clear d) =
        render { parseContent c with
          bindings := removeB d (parseContent c).bindings } := by
      simp only [applyOp, clear_binding]
      rw [hbom]
    rw [happ]
    refine render_step hc ?_
    intro q hq
    exact parseContent_pairs_clean hc q (List.mem_of_mem_filter hq)
  | clearBatch ds =>
    by_cases hds : ds = []
    · have happ : applyOp c (.clearBatch ds) = c := by
        simp only [applyOp, clear_bindings_batch]
        rw [if_pos hds]
      rw [happ]
      exact ⟨hc, List.Sublist.refl _⟩
    · have happ : applyOp c (.clearBatch ds) =
          render { parseContent c with
            bindings := (dedupStrs ds).foldl (fun mm d => removeB d mm)
              (parseContent c).bindings } := by
        simp only [applyOp, clear_bindings_batch]
        rw [if_neg hds, hbom]
      rw [happ]
      refine render_step hc ?_
      intro q hq
      exact parseContent_pairs_clean hc q (mem_foldl_removeB _ _ hq)
  | clearAll =>
    have happ : applyOp c .clearAll =
        render { parseContent c with bindings := [] } := by
      simp only [applyOp, clear_all_anyfast_bindings]
      rw [hbom]
    rw [happ]
    refine render_step hc ?_
    intro q hq
    simp at hq

/-! ### Claim C1: preservation of the non-managed portion -/

/-- C1 counterexample: the original claim promises byte-for-byte preservation
of content outside the managed block.  The content "a\r\nb" contains no
marker at all, the operation writes a valid pair, yet the carriage-return
byte of the original content does not occur anywhere in the rewritten file:
`lines()` strips `\r` and `render` rejoins with bare `\n`. -/
theorem C1_byte_preservation_counterexample :
    validate_ip "1.2.3.4".data = none ∧
    validate_domain "x.com".data = none ∧
    containsSub MARKER_BEGIN "a\u000d\nb".data = false ∧
    containsSub MARKER_LINE "a\u000d\nb".data = false ∧
    '\u000d' ∈ "a\u000d\nb".data ∧
    '\u000d' ∉ applyOps "a\u000d\nb".data [.write "x.com".data "1.2.3.4".data] := by
  decide

/-- C1 (amended): for hosts-file contents free of carriage returns and of a
byte-order mark, every sequence of write/batch/clear operations preserves the
non-empty non-managed lines of the content, in order (the rewrite may insert
a blank line before the managed block and drop a trailing blank line, and it
normalises CRLF endings, which is why the amendment is stated at the level of
non-empty lines of CR-free content rather than raw bytes). -/
theorem C1_nonmanaged_lines_preserved (c : Str) (ops : List HostsOp)
    (hc : contentClean c) :
    List.Sublist (filterNE (nonManagedLines c))
      (filterNE (nonManagedLines (applyOps c ops))) := by
  induction ops generalizing c with
  | nil => exact List.Sublist.refl _
  | cons op rest ih =>
    obtain ⟨h1, h2⟩ := applyOp_step c op hc
    exact h2.trans (ih (applyOp c op) h1)

/-- C1 witness: the preservation theorem applied to the concrete content
"a\nb" and a single valid write operation. -/
theorem C1_nonmanaged_lines_preserved_witness :
    contentClean "a\nb".data ∧
    List.Sublist (filterNE (nonManagedLines "a\nb".data))
      (filterNE (nonManagedLines (applyOps "a\nb".data
        [.write "x.com".data "1.2.3.4".data]))) :=
  ⟨⟨by decide, by decide⟩,
   C1_nonmanaged_lines_preserved _ _ ⟨by decide, by decide⟩⟩

/-! ### Claim C4: validation of write inputs -/

/-- C4 counterexample: the claim restricts valid domain characters to
`[A-Za-z0-9._-]`, but the code uses Rust's Unicode `char::is_alphanumeric`:
the domain "é" consists of a character outside that ASCII set, yet it passes
validation and the write proceeds to open and rewrite the hosts file. -/
theorem C4_domain_charset_counterexample :
    (∀ c ∈ "é".data, ¬(('A' ≤ c ∧ c ≤ 'Z') ∨ ('a' ≤ c ∧ c ≤ 'z') ∨
      ('0' ≤ c ∧ c ≤ '9') ∨ c = '.' ∨ c = '_' ∨ c = '-')) ∧
    validate_domain "é".data = none ∧
    (write_binding "".data "é".data "1.2.3.4".data).opened = true ∧
    ∃ c', (write_binding "".data "é".data "1.2.3.4".data).outcome = .ok c' := by
  refine ⟨by decide, by decide, by decide, ⟨_, rfl⟩⟩

/-- Every character the modelled alphanumeric table accepts lies in the
Latin-1 range, where the table agrees with Rust `char::is_alphanumeric`. -/
theorem rustIsAlphanumeric_latin1 {c : Char}
    (h : rustIsAlphanumeric c = true) : c.toNat < 256 := by
  unfold rustIsAlphanumeric at h
  simp only [Bool.or_eq_true, Bool.and_eq_true, decide_eq_true_eq] at h
  rcases h with
    ((((((((((((⟨h1, h2⟩ | ⟨h1, h2⟩) | ⟨h1, h2⟩) | h) | h) | h) | h) | h) |
      h) | h) | h) | h) | h)
  · have h3 : c.toNat ≤ 122 := h2
    omega
  · have h3 : c.toNat ≤ 90 := h2
    omega
  · have h3 : c.toNat ≤ 57 := h2
    omega
  all_goals omega

/-- A domain accepted by the modelled validation consists of Latin-1
characters only. -/
theorem validate_domain_none_latin1 {d : Str}
    (h : validate_domain d = none) : ∀ ch ∈ d, ch.toNat < 256 := by
  intro ch hch
  rcases (validate_domain_none_iff.mp h).2.2 ch hch with ha | ha | ha | ha
  · exact rustIsAlphanumeric_latin1 ha
  · subst ha
    decide
  · subst ha
    decide
  · subst ha
    decide

/-- C4 (amended): an ip that does not parse as IPv4/IPv6 fails with
`InvalidIp` before the domain is examined and without opening the hosts
file; inputs passing both checks open the file and succeed — and every
domain the validation accepts passes Rust's Unicode `is_alphanumeric`-or-
`-`/`.`/`_` test, a strictly larger set than the ASCII class
`[A-Za-z0-9._-]` the claim names (the Latin-1 domain "é" passes and is
written).  For domains within the Latin-1 range — on which the embedded
character table coincides with Rust's `char::is_alphanumeric` in every
Unicode version — the characterization is exact: a domain that is empty,
contains whitespace or control characters, or contains a character neither
alphanumeric nor `-`/`.`/`_` fails with `InvalidDomain` without opening the
file, and acceptance is exactly the stated character test.  (Above Latin-1
Rust consults version-dependent Unicode tables, so the rejection side is
stated only on that range.) -/
theorem C4_write_validation (c d ip : Str) :
    (rustParseIp ip = false →
      write_binding c d ip = ⟨.error (.invalidIp ip), false⟩) ∧
    ((∀ ch ∈ d, ch.toNat < 256) → rustParseIp ip = true →
      validate_domain d ≠ none →
      ∃ m, write_binding c d ip = ⟨.error (.invalidDomain m), false⟩) ∧
    (rustParseIp ip = true → validate_domain d = none →
      (write_binding c d ip).opened = true ∧
      ∃ c', (write_binding c d ip).outcome = .ok c') ∧
    (validate_domain d = none → ∀ ch ∈ d, ch.toNat < 256) ∧
    ((∀ ch ∈ d, ch.toNat < 256) →
      (validate_domain d = none ↔ d ≠ [] ∧
        (∀ ch ∈ d, rustIsWhitespace ch = false ∧ rustIsControl ch = false) ∧
        (∀ ch ∈ d, rustIsAlphanumeric ch = true ∨ ch = '-' ∨ ch = '.' ∨
          ch = '_'))) := by
  refine ⟨?_, ?_, ?_, fun h => validate_domain_none_latin1 h,
    fun _ => validate_domain_none_iff⟩
  · intro h
    simp [write_binding, validate_ip, h]
  · intro _ h hd
    rcases he : validate_domain d with _ | e
    · exact absurd he hd
    · have hm : ∃ m, e = HostsError.invalidDomain m := by
        unfold validate_domain at he
        split_ifs at he <;>
          (injection he with h2; exact ⟨_, h2.symm⟩)
      obtain ⟨m, rfl⟩ := hm
      exact ⟨m, by simp [write_binding, validate_ip, h, he]⟩
  · intro h hd
    have hw : write_binding c d ip =
        ⟨.ok (render { parseContent (stripBom c) with
          bindings := insertB d ip (parseContent (stripBom c)).bindings }),
         true⟩ := by
      simp [write_binding, validate_ip, h, hd]
    rw [hw]
    exact ⟨rfl, _, rfl⟩

/-- C4 witness: the behaviours at concrete inputs — a bad ip, a Latin-1
domain with a space, and a fully valid pair. -/
theorem C4_write_validation_witness :
    write_binding "".data "x.com".data "zz".data =
      ⟨.error (.invalidIp "zz".data), false⟩ ∧
    (∃ m, write_binding "".data "a b".data "1.2.3.4".data =
      ⟨.error (.invalidDomain m), false⟩) ∧
    ((write_binding "".data "x.com".data "1.2.3.4".data).opened = true ∧
      ∃ c', (write_binding "".data "x.com".data "1.2.3.4".data).outcome =
        .ok c') :=
  ⟨(C4_write_validation "".data "x.com".data "zz".data).1 (by decide),
   (C4_write_validation "".data "a b".data "1.2.3.4".data).2.1
     (by decide) (by decide) (by decide),
   (C4_write_validation "".data "x.com".data "1.2.3.4".data).2.2.1
     (by decide) (by decide)⟩

/-! ### Claim C10: batch write count -/

/-- C10: a successful direct batch write reports exactly the number of
submitted bindings — duplicates within the batch and already-present pairs
all counted — and an empty batch returns 0 without opening the hosts
file. -/
theorem C10_batch_count (c : Str) (bs : List (Str × Str)) :
    (bs ≠ [] → validateBatch bs = none →
      ∃ c', (write_bindings_batch c bs).outcome = .ok (c', bs.length)) ∧
    (bs = [] → write_bindings_batch c bs = ⟨.ok (c, 0), false⟩) := by
  constructor
  · intro hne hv
    refine ⟨render { parseContent (stripBom c) with
        bindings := bs.foldl (fun mm b => insertB b.1 b.2 mm)
          (parseContent (stripBom c)).bindings }, ?_⟩
    simp [write_bindings_batch, if_neg hne, hv, batch_fold_fst, batch_fold_snd]
  · intro h
    subst h
    rfl

/-- C10 witness: a batch of two identical valid bindings reports count 2,
and the empty batch reports 0 with the file left unopened. -/
theorem C10_batch_count_witness :
    (∃ c', (write_bindings_batch "".data
        [("a.com".data, "1.1.1.1".data), ("a.com".data, "1.1.1.1".data)]).outcome =
      .ok (c', 2)) ∧
    write_bindings_batch "".data ([] : List (Str × Str)) =
      ⟨.ok ("".data, 0), false⟩ :=
  ⟨(C10_batch_count "".data _).1 (by decide) (by decide),
   (C10_batch_count "".data _).2 rfl⟩

/-! ### Claim C9: parse/render roundtrip — token and trim lemmas -/

/-- A harvested binding pair: both components are non-empty whitespace-free
tokens and the ip does not start with `#`. -/
def goodPair (q : Str × Str) : Prop :=
  q.1 ≠ [] ∧ q.2 ≠ [] ∧
  (∀ c ∈ q.1, rustIsWhitespace c = false) ∧
  (∀ c ∈ q.2, rustIsWhitespace c = false) ∧
  startsHash q.2 = false

theorem wordsGo_tokens :
    ∀ (s cur : Str), (∀ c ∈ cur, rustIsWhitespace c = false) →
      ∀ w ∈ wordsGo cur s,
        w ≠ [] ∧ ∀ c ∈ w, rustIsWhitespace c = false := by
  intro s
  induction s with
  | nil =>
    intro cur hcur w hw
    simp only [wordsGo] at hw
    split at hw
    · simp at hw
    · rename_i hne
      simp only [List.mem_singleton] at hw
      subst hw
      refine ⟨by simpa using hne, ?_⟩
      intro c hc
      exact hcur c (List.mem_reverse.mp hc)
  | cons x rest ih =>
    intro cur hcur w hw
    simp only [wordsGo] at hw
    split at hw
    · split at hw
      · exact ih [] (by simp) w hw
      · rename_i hne
        rcases List.mem_cons.mp hw with hw | hw
        · subst hw
          refine ⟨by simpa using hne, ?_⟩
          intro c hc
          exact hcur c (List.mem_reverse.mp hc)
        · exact ih [] (by simp) w hw
    · rename_i hx
      refine ih (x :: cur) ?_ w hw
      intro c hc
      rcases List.mem_cons.mp hc with hc | hc
      · subst hc
        exact eq_false_of_ne_true hx
      · exact hcur c hc

theorem words_tokens {s w : Str} (hw : w ∈ words s) :
    w ≠ [] ∧ ∀ c ∈ w, rustIsWhitespace c = false :=
  wordsGo_tokens s [] (by simp) w hw

theorem wordsGo_nonws_run :
    ∀ (a : Str), (∀ c ∈ a, rustIsWhitespace c = false) →
      ∀ (cur s : Str), wordsGo cur (a ++ s) = wordsGo (a.reverse ++ cur) s := by
  intro a
  induction a with
  | nil => intro _ cur s; simp
  | cons x a ih =>
    intro h cur s
    have hx : rustIsWhitespace x = false := h x (by simp)
    rw [List.cons_append]
    simp only [wordsGo, hx, Bool.false_eq_true, if_false]
    rw [ih (fun c hc => h c (by simp [hc])) (x :: cur) s]
    simp

theorem words_token_sep {a : Str} (ha : a ≠ [])
    (hw : ∀ c ∈ a, rustIsWhitespace c = false) {c : Char}
    (hc : rustIsWhitespace c = true) (r : Str) :
    words (a ++ c :: r) = a :: words r := by
  unfold words
  rw [wordsGo_nonws_run a hw [] (c :: r)]
  simp only [List.append_nil, wordsGo, hc, if_true]
  rw [if_neg (by simpa using ha)]
  simp

theorem wordsGo_head :
    ∀ (s cur : Str), cur ≠ [] →
      ∃ m r, wordsGo cur s = (cur.reverse ++ m) :: r := by
  intro s
  induction s with
  | nil =>
    intro cur hcur
    refine ⟨[], [], ?_⟩
    simp [wordsGo, hcur]
  | cons x rest ih =>
    intro cur hcur
    by_cases hx : rustIsWhitespace x = true
    · refine ⟨[], wordsGo [] rest, ?_⟩
      simp [wordsGo, hx, hcur]
    · obtain ⟨m, r, hmr⟩ := ih (x :: cur) (by simp)
      refine ⟨x :: m, r, ?_⟩
      simp only [wordsGo, hx, if_false]
      rw [hmr]
      simp

theorem dropWhile_head_not {p : Char → Bool} :
    ∀ {l : Str} {c : Char} {rest : Str},
      l.dropWhile p = c :: rest → p c = false := by
  intro l
  induction l with
  | nil => intro c rest h; simp [List.dropWhile] at h
  | cons x xs ih =>
    intro c rest h
    by_cases hx : p x = true
    · rw [List.dropWhile_cons_of_pos hx] at h
      exact ih h
    · rw [List.dropWhile_cons_of_neg hx] at h
      injection h with h1 _
      subst h1
      exact eq_false_of_ne_true hx

theorem dropWhile_exists_prepend (p : Char → Bool) :
    ∀ (l : Str), ∃ u, u ++ l.dropWhile p = l := by
  intro l
  induction l with
  | nil => exact ⟨[], rfl⟩
  | cons x xs ih =>
    by_cases hx : p x = true
    · obtain ⟨u, hu⟩ := ih
      refine ⟨x :: u, ?_⟩
      rw [List.dropWhile_cons_of_pos hx, List.cons_append, hu]
    · exact ⟨[], by rw [List.dropWhile_cons_of_neg hx, List.nil_append]⟩

theorem rustTrim_append_tail (l : Str) :
    ∃ t, l.dropWhile rustIsWhitespace = rustTrim l ++ t := by
  obtain ⟨u, hu⟩ :=
    dropWhile_exists_prepend rustIsWhitespace
      (l.dropWhile rustIsWhitespace).reverse
  refine ⟨u.reverse, ?_⟩
  unfold rustTrim
  have h2 := congrArg List.reverse hu
  simp only [List.reverse_append, List.reverse_reverse] at h2
  exact h2.symm

theorem rustTrim_head_ws_false {l : Str} {c : Char} {rest : Str}
    (h : rustTrim l = c :: rest) : rustIsWhitespace c = false := by
  obtain ⟨t, ht⟩ := rustTrim_append_tail l
  rw [h, List.cons_append] at ht
  exact dropWhile_head_not ht

theorem startsHash_eq_true_iff {c : Char} {s : Str} :
    startsHash (c :: s) = true ↔ c = '#' := by
  constructor
  · intro h
    unfold startsHash at h
    split at h
    · rename_i heq
      exact (List.cons_eq_cons.mp heq).1
    · cases h
  · intro h
    subst h
    rfl

theorem words_trim_head {l : Str} {c : Char} {rest : Str}
    (h : rustTrim l = c :: rest) :
    ∃ m r, words (rustTrim l) = (c :: m) :: r := by
  rw [h]
  have hc : rustIsWhitespace c = false := rustTrim_head_ws_false h
  unfold words
  simp only [wordsGo, hc, Bool.false_eq_true, if_false]
  obtain ⟨m, r, hmr⟩ := wordsGo_head rest [c] (by simp)
  refine ⟨m, r, ?_⟩
  rw [hmr]
  simp

theorem getLastQ_append_ne {α : Type} {B : List α} (A : List α) (hB : B ≠ []) :
    (A ++ B).getLast? = B.getLast? := by
  induction A with
  | nil => rfl
  | cons a A ih =>
    obtain ⟨x, t, hxt⟩ := List.exists_cons_of_ne_nil
      (by simp [hB] : A ++ B ≠ [])
    rw [List.cons_append, hxt, List.getLast?_cons_cons, ← hxt, ih]

theorem rustTrim_eq_self {x y : Char} {m : Str}
    (hx : rustIsWhitespace x = false)
    (hy : rustIsWhitespace y = false)
    (hlast : (x :: m).getLast? = some y) :
    rustTrim (x :: m) = x :: m := by
  unfold rustTrim
  rw [List.dropWhile_cons_of_neg (by simp [hx])]
  have hne : (x :: m).reverse ≠ [] := by simp
  obtain ⟨z, t, hzt⟩ := List.exists_cons_of_ne_nil hne
  have hz : z = y := by
    have h1 : (x :: m).getLast? = ((x :: m).reverse).head? := by
      rw [List.head?_reverse]
    rw [hlast, hzt] at h1
    exact (Option.some.injEq _ _ ▸ h1).symm
  subst hz
  rw [hzt, List.dropWhile_cons_of_neg (by simp [hy]), ← hzt,
    List.reverse_reverse]

theorem bindingLine_clean {q : Str × Str} (hq : goodPair q) :
    '\n' ∉ bindingLine q ∧ '\u000d' ∉ bindingLine q := by
  obtain ⟨h1, h2, h3, h4, h5⟩ := hq
  constructor <;> intro hx <;> rcases mem_bindingLine hx with h | h | h | h
  · exact absurd (h3 _ h) (by decide)
  · exact absurd (h4 _ h) (by decide)
  · exact absurd h (by decide)
  · exact absurd h (by decide)
  · exact absurd (h3 _ h) (by decide)
  · exact absurd (h4 _ h) (by decide)
  · exact absurd h (by decide)
  · exact absurd h (by decide)

theorem bindingLine_getLast (q : Str × Str) :
    (bindingLine q).getLast? = some 'T' := by
  unfold bindingLine
  rw [getLastQ_append_ne _ (by simp)]
  decide

theorem rustTrim_eq_self2 {l : Str} {x y : Char}
    (hhead : l.head? = some x) (hx : rustIsWhitespace x = false)
    (hlast : l.getLast? = some y) (hy : rustIsWhitespace y = false) :
    rustTrim l = l := by
  rcases l with _ | ⟨a, m⟩
  · cases hhead
  · rw [List.head?_cons] at hhead
    injection hhead with ha
    subst ha
    exact rustTrim_eq_self hx hy hlast

theorem bindingLine_head {q : Str × Str} (hq : goodPair q) :
    ∃ y t, bindingLine q = y :: t ∧ y ≠ '#' := by
  obtain ⟨h1, h2, h3, h4, h5⟩ := hq
  obtain ⟨y, ys, hys⟩ := List.exists_cons_of_ne_nil h2
  refine ⟨y, (ys ++ '\t' :: q.1) ++ '\t' :: MARKER_LINE, ?_, ?_⟩
  · unfold bindingLine
    rw [hys, List.cons_append, List.cons_append]
  · intro hy
    rw [hys] at h5
    subst hy
    rw [show startsHash ('#' :: ys) = true from rfl] at h5
    cases h5

theorem rustTrim_bindingLine {q : Str × Str} (hq : goodPair q) :
    rustTrim (bindingLine q) = bindingLine q := by
  obtain ⟨y, t, hyt, hy⟩ := bindingLine_head hq
  obtain ⟨h1, h2, h3, h4, h5⟩ := hq
  have hhead : (bindingLine q).head? = some y := by
    rw [hyt, List.head?_cons]
  have hyw : rustIsWhitespace y = false := by
    obtain ⟨z, zs, hzs⟩ := List.exists_cons_of_ne_nil h2
    have hz : z = y := by
      have : (bindingLine q).head? = some z := by
        unfold bindingLine
        rw [hzs, List.cons_append, List.cons_append, List.head?_cons]
      rw [hhead] at this
      injection this with h
      exact h.symm
    subst hz
    exact h4 z (by rw [hzs]; simp)
  exact rustTrim_eq_self2 hhead hyw (bindingLine_getLast q) (by decide)

theorem words_bindingLine {q : Str × Str} (hq : goodPair q) :
    words (bindingLine q) = [q.2, q.1, ['#'], "anyFAST".data] := by
  obtain ⟨h1, h2, h3, h4, h5⟩ := hq
  have ha : bindingLine q = q.2 ++ '\t' :: (q.1 ++ '\t' :: MARKER_LINE) := by
    unfold bindingLine
    simp
  rw [ha, words_token_sep h2 h4 (by decide) _,
    words_token_sep h1 h3 (by decide) _]
  have hm : words MARKER_LINE = [['#'], "anyFAST".data] := by decide
  rw [hm]

theorem lineInserts_bindingLine {q : Str × Str} (hq : goodPair q) :
    lineInserts (bindingLine q) = [q] := by
  unfold lineInserts
  rw [rustTrim_bindingLine hq, words_bindingLine hq]

theorem bindingLine_not_MB {q : Str × Str} (hq : goodPair q) :
    rustTrim (bindingLine q) ≠ MARKER_BEGIN := by
  rw [rustTrim_bindingLine hq]
  obtain ⟨y, t, hyt, hy⟩ := bindingLine_head hq
  rw [hyt]
  intro h
  have hmb : MARKER_BEGIN = '#' :: " BEGIN anyFAST".data := by decide
  rw [hmb] at h
  exact hy (List.cons_eq_cons.mp h).1

theorem bindingLine_not_ME {q : Str × Str} (hq : goodPair q) :
    rustTrim (bindingLine q) ≠ MARKER_END := by
  rw [rustTrim_bindingLine hq]
  obtain ⟨y, t, hyt, hy⟩ := bindingLine_head hq
  rw [hyt]
  intro h
  have hme : MARKER_END = '#' :: " END anyFAST".data := by decide
  rw [hme] at h
  exact hy (List.cons_eq_cons.mp h).1

theorem bindingLine_cond {q : Str × Str} (hq : goodPair q) :
    inBlockBindCond (bindingLine q) = true := by
  unfold inBlockBindCond
  rw [rustTrim_bindingLine hq]
  obtain ⟨y, t, hyt, hy⟩ := bindingLine_head hq
  rw [hyt]
  have hsh : startsHash (y :: t) = false := by
    rw [Bool.eq_false_iff]
    intro h
    exact hy (startsHash_eq_true_iff.mp h)
  rw [hsh]
  rfl

theorem pg_inserts_nohash :
    ∀ (ls : List Str) (inb found : Bool),
      ∀ p ∈ (parseGo inb found ls).inserts,
        ∃ l, p ∈ lineInserts l ∧ startsHash (rustTrim l) = false := by
  intro ls
  induction ls with
  | nil => intro inb found p hp; simp [parseGo] at hp
  | cons x ls ih =>
    intro inb found p hp
    by_cases h1 : rustTrim x = MARKER_BEGIN
    · simp only [parseGo, if_pos h1] at hp
      exact ih true true p hp
    · by_cases h2 : rustTrim x = MARKER_END
      · simp only [parseGo, if_neg h1, if_pos h2] at hp
        exact ih false found p hp
      · cases inb
        · cases found
          · by_cases h4 : isLegacy x = true
            · simp only [parseGo, if_neg h1, if_neg h2, Bool.false_eq_true,
                if_false, if_pos h4] at hp
              rcases List.mem_append.mp hp with hp | hp
              · refine ⟨x, hp, ?_⟩
                unfold isLegacy at h4
                simp only [Bool.and_eq_true, Bool.not_eq_true'] at h4
                exact h4.2
              · exact ih false false p hp
            · simp only [parseGo, if_neg h1, if_neg h2, Bool.false_eq_true,
                if_false, if_neg h4] at hp
              exact ih false false p hp
          · simp only [parseGo, if_neg h1, if_neg h2, Bool.false_eq_true,
              if_false, if_true] at hp
            exact ih false true p hp
        · simp only [parseGo, if_neg h1, if_neg h2, if_true] at hp
          rcases List.mem_append.mp hp with hp | hp
          · by_cases h5 : inBlockBindCond x = true
            · rw [if_pos h5] at hp
              refine ⟨x, hp, ?_⟩
              unfold inBlockBindCond at h5
              simp only [Bool.and_eq_true, Bool.not_eq_true'] at h5
              exact h5.2
            · rw [if_neg h5] at hp
              simp at hp
          · exact ih true found p hp

theorem parseContent_bindings_good {H : Str} {q : Str × Str}
    (hq : q ∈ (parseContent H).bindings) : goodPair q := by
  have hq1 : q ∈ (parseGo false false (linesOf H)).inserts := by
    have h0 : (parseContent H).bindings =
        foldInserts (parseGo false false (linesOf H)).inserts := rfl
    rw [h0] at hq
    rcases mem_foldl_insertB _ [] hq with h | h
    · simp at h
    · exact h
  obtain ⟨l, hl, hhash⟩ := pg_inserts_nohash (linesOf H) false false q hq1
  unfold lineInserts at hl
  rcases hw : words (rustTrim l) with _ | ⟨p0, rest⟩
  · rw [hw] at hl
    simp at hl
  · rcases rest with _ | ⟨p1, rest2⟩
    · rw [hw] at hl
      simp at hl
    · rw [hw] at hl
      simp only [List.mem_singleton] at hl
      subst hl
      have hp0 := words_tokens (s := rustTrim l) (w := p0) (by rw [hw]; simp)
      have hp1 := words_tokens (s := rustTrim l) (w := p1) (by rw [hw]; simp)
      refine ⟨hp1.1, hp0.1, hp1.2, hp0.2, ?_⟩
      rcases ht : rustTrim l with _ | ⟨c, trest⟩
      · rw [ht] at hw
        simp [words, wordsGo] at hw
      · obtain ⟨m, r, hmr⟩ := words_trim_head ht
        rw [ht] at hw hmr
        rw [hw] at hmr
        have hp0c : p0 = c :: m := (List.cons_eq_cons.mp hmr).1
        rw [hp0c, Bool.eq_false_iff]
        intro hsh
        have hc : c = '#' := startsHash_eq_true_iff.mp hsh
        rw [ht] at hhash
        rw [hc] at hhash
        rw [show startsHash ('#' :: trest) = true from rfl] at hhash
        cases hhash

theorem pg_plain_head :
    ∀ (bs rest : List Str), (∀ l ∈ bs, keepOutside l) →
      parseGo false false (bs ++ rest) =
        { parseGo false false rest with
          before := bs ++ (parseGo false false rest).before } := by
  intro bs
  induction bs with
  | nil => intro rest _; simp
  | cons x bs ih =>
    intro rest h
    obtain ⟨h1, h2, h3⟩ := h x (by simp)
    rw [List.cons_append]
    simp only [parseGo, if_neg h1, if_neg h2, Bool.false_eq_true, if_false,
      if_neg (by simp [h3] : ¬isLegacy x = true)]
    rw [ih rest (fun l hl => h l (by simp [hl]))]
    simp

theorem pg_bls :
    ∀ (B : Bindings) (rest : List Str), (∀ q ∈ B, goodPair q) →
      parseGo true true (B.map bindingLine ++ rest) =
        { parseGo true true rest with
          inserts := B ++ (parseGo true true rest).inserts,
          unclosed := B.map bindingLine ++ (parseGo true true rest).unclosed } := by
  intro B
  induction B with
  | nil => intro rest _; simp
  | cons q B ih =>
    intro rest h
    have hq := h q (by simp)
    rw [List.map_cons, List.cons_append]
    simp only [parseGo, if_neg (bindingLine_not_MB hq),
      if_neg (bindingLine_not_ME hq), if_true,
      if_pos (bindingLine_cond hq), lineInserts_bindingLine hq]
    rw [ih rest (fun p hp => h p (by simp [hp]))]
    simp

theorem pg_after_tail :
    ∀ (af : List Str),
      (∀ l ∈ af, rustTrim l ≠ MARKER_BEGIN ∧ rustTrim l ≠ MARKER_END) →
      parseGo false true af = ⟨[], af, [], [], false⟩ := by
  intro af
  induction af with
  | nil => intro _; rfl
  | cons x af ih =>
    intro h
    obtain ⟨h1, h2⟩ := h x (by simp)
    simp only [parseGo, if_neg h1, if_neg h2, Bool.false_eq_true, if_false,
      if_true]
    rw [ih (fun l hl => h l (by simp [hl]))]

theorem parseLines_renderLines (p : ParsedHosts)
    (hb : p.bindings ≠ [])
    (hsort : p.bindings.Pairwise keyLt)
    (hgood : ∀ q ∈ p.bindings, goodPair q)
    (hbefore : ∀ l ∈ p.before, keepOutside l)
    (hafter : ∀ l ∈ p.after, rustTrim l ≠ MARKER_BEGIN ∧ rustTrim l ≠ MARKER_END) :
    parseLines (renderLines p) =
      ⟨(if needsBlank p.before then p.before ++ [[]] else p.before),
        p.after, p.bindings⟩ := by
  have hbe : p.bindings.isEmpty = false := by
    cases hB : p.bindings
    · exact absurd hB hb
    · rfl
  have hkeepB :
      ∀ l ∈ (if needsBlank p.before then p.before ++ [[]] else p.before),
        keepOutside l := by
    intro l hl
    split at hl
    · rcases List.mem_append.mp hl with hl | hl
      · exact hbefore l hl
      · simp only [List.mem_singleton] at hl
        subst hl
        exact ⟨by decide, by decide, by decide⟩
    · exact hbefore l hl
  have hR : renderLines p =
      (if needsBlank p.before then p.before ++ [[]] else p.before) ++
        (MARKER_BEGIN ::
          (p.bindings.map bindingLine ++ (MARKER_END :: p.after))) := by
    unfold renderLines
    rw [hbe]
    simp [List.append_assoc]
  have hP : parseGo false false (renderLines p) =
      ⟨(if needsBlank p.before then p.before ++ [[]] else p.before),
        p.after, p.bindings, p.bindings.map bindingLine, false⟩ := by
    rw [hR, pg_plain_head _ _ hkeepB]
    have hMB : parseGo false false
        (MARKER_BEGIN ::
          (p.bindings.map bindingLine ++ (MARKER_END :: p.after))) =
        parseGo true true
          (p.bindings.map bindingLine ++ (MARKER_END :: p.after)) := by
      simp only [parseGo, if_pos rustTrim_MB]
    rw [hMB, pg_bls _ _ hgood]
    have hME : parseGo true true (MARKER_END :: p.after) =
        parseGo false true p.after := by
      have hc1 : ¬(rustTrim MARKER_END = MARKER_BEGIN) := by
        rw [rustTrim_ME]
        exact ME_ne_MB
      simp only [parseGo, if_neg hc1, if_pos rustTrim_ME]
    rw [hME, pg_after_tail _ hafter]
    simp
  unfold parseLines
  rw [hP]
  simp only [List.append_nil]
  rw [foldInserts_sorted_id _ hsort]
  simp

theorem renderLines_clean2 (p : ParsedHosts)
    (hgood : ∀ q ∈ p.bindings, goodPair q)
    (hbc : ∀ l ∈ p.before, '\n' ∉ l ∧ '\u000d' ∉ l)
    (hac : ∀ l ∈ p.after, '\n' ∉ l ∧ '\u000d' ∉ l) :
    ∀ l ∈ renderLines p, '\n' ∉ l ∧ '\u000d' ∉ l := by
  intro l hl
  rcases mem_renderLines hl with h | h | h | h | h | ⟨q, hq, h⟩
  · exact hbc l h
  · exact hac l h
  · subst h; exact ⟨by simp, by simp⟩
  · subst h; exact ⟨by decide, by decide⟩
  · subst h; exact ⟨by decide, by decide⟩
  · subst h; exact bindingLine_clean (hgood q hq)

theorem renderLines_last (p : ParsedHosts) (hb : p.bindings ≠ [])
    (hlast : p.after.getLast? ≠ some []) :
    (renderLines p).getLast? ≠ some [] := by
  have hbe : p.bindings.isEmpty = false := by
    cases hB : p.bindings
    · exact absurd hB hb
    · rfl
  unfold renderLines
  rw [hbe]
  simp only [Bool.false_eq_true, if_false]
  cases hA : p.after with
  | nil =>
    rw [List.append_nil, getLastQ_append_ne _ (by simp)]
    rw [getLastQ_append_ne _ (by simp)]
    simp only [List.getLast?_singleton]
    intro h
    have : MARKER_END = [] := by injection h
    exact absurd this (by decide)
  | cons a t =>
    rw [getLastQ_append_ne _ (by simp)]
    rw [← hA]
    exact hlast

theorem parseContent_render (p : ParsedHosts)
    (hb : p.bindings ≠ [])
    (hsort : p.bindings.Pairwise keyLt)
    (hgood : ∀ q ∈ p.bindings, goodPair q)
    (hbefore : ∀ l ∈ p.before, keepOutside l)
    (hbc : ∀ l ∈ p.before, '\n' ∉ l ∧ '\u000d' ∉ l)
    (hafter : ∀ l ∈ p.after, rustTrim l ≠ MARKER_BEGIN ∧ rustTrim l ≠ MARKER_END)
    (hac : ∀ l ∈ p.after, '\n' ∉ l ∧ '\u000d' ∉ l)
    (hlast : p.after.getLast? ≠ some []) :
    parseContent (render p) =
      ⟨(if needsBlank p.before then p.before ++ [[]] else p.before),
        p.after, p.bindings⟩ := by
  have hclean := renderLines_clean2 p hgood hbc hac
  unfold parseContent render
  rw [linesOf_joinNl _ (fun l hl => (hclean l hl).1) (fun l hl => (hclean l hl).2)]
  rw [if_neg (renderLines_last p hb hlast)]
  exact parseLines_renderLines p hb hsort hgood hbefore hafter

theorem parse_render_idem (p : ParsedHosts)
    (hb : p.bindings ≠ [])
    (hsort : p.bindings.Pairwise keyLt)
    (hgood : ∀ q ∈ p.bindings, goodPair q)
    (hbefore : ∀ l ∈ p.before, keepOutside l)
    (hbc : ∀ l ∈ p.before, '\n' ∉ l ∧ '\u000d' ∉ l)
    (hafter : ∀ l ∈ p.after, rustTrim l ≠ MARKER_BEGIN ∧ rustTrim l ≠ MARKER_END)
    (hac : ∀ l ∈ p.after, '\n' ∉ l ∧ '\u000d' ∉ l)
    (hlast : p.after.getLast? ≠ some []) :
    ((parseContent (render p)).before = p.before ∨
      (parseContent (render p)).before = p.before ++ [[]]) ∧
    (parseContent (render p)).after = p.after ∧
    (parseContent (render p)).bindings = p.bindings ∧
    render (parseContent (render p)) = render p := by
  have hbe : p.bindings.isEmpty = false := by
    cases hB : p.bindings
    · exact absurd hB hb
    · rfl
  have hPC := parseContent_render p hb hsort hgood hbefore hbc hafter hac hlast
  rw [hPC]
  refine ⟨?_, rfl, rfl, ?_⟩
  · by_cases hnb : needsBlank p.before = true
    · right
      rw [if_pos hnb]
    · left
      rw [if_neg hnb]
  · have hRL : renderLines
        ⟨(if needsBlank p.before then p.before ++ [[]] else p.before),
          p.after, p.bindings⟩ = renderLines p := by
      unfold renderLines
      simp only [hbe, Bool.false_eq_true, if_false]
      by_cases hnb : needsBlank p.before = true
      · rw [if_pos hnb]
        have h2 : needsBlank (p.before ++ [[]]) = false := by
          unfold needsBlank
          rw [getLastQ_append_ne _ (by simp)]
          rfl
        rw [if_neg (by simp [h2])]
      · rw [if_neg hnb, if_neg hnb]
    unfold render
    rw [hRL]

/-- C9 counterexample: the content below is a well-formed hosts file — clean,
with exactly one `# BEGIN anyFAST` and one `# END anyFAST` line and one valid
binding between them — yet re-parsing the rendered output does not reproduce
the model: `render` inserts a blank separator line before the block, so the
re-parsed `before` buffer differs from the original one. -/
theorem C9_roundtrip_counterexample :
    contentClean "a\n# BEGIN anyFAST\n1.2.3.4\tx.com\t# anyFAST\n# END anyFAST".data ∧
    (linesOf "a\n# BEGIN anyFAST\n1.2.3.4\tx.com\t# anyFAST\n# END anyFAST".data).countP
      (fun l => rustTrim l = MARKER_BEGIN) = 1 ∧
    (linesOf "a\n# BEGIN anyFAST\n1.2.3.4\tx.com\t# anyFAST\n# END anyFAST".data).countP
      (fun l => rustTrim l = MARKER_END) = 1 ∧
    (parseContent "a\n# BEGIN anyFAST\n1.2.3.4\tx.com\t# anyFAST\n# END anyFAST".data).bindings ≠ [] ∧
    (parseContent (render (parseContent
        "a\n# BEGIN anyFAST\n1.2.3.4\tx.com\t# anyFAST\n# END anyFAST".data))).before ≠
      (parseContent "a\n# BEGIN anyFAST\n1.2.3.4\tx.com\t# anyFAST\n# END anyFAST".data).before :=
  ⟨⟨by decide, by decide⟩, by decide, by decide, by decide, by decide⟩

/-- C9 (amended): for a clean hosts file whose parse yields a non-empty
binding map and whose trailing buffer does not end in a blank line, parsing
the rendered output reproduces the `after` buffer and the binding map
exactly, reproduces the `before` buffer up to one appended blank separator
line, and rendering the re-parsed model a second time is byte-identical to
the first render. -/
theorem C9_parse_render_roundtrip (H : Str) (hc : contentClean H)
    (hb : (parseContent H).bindings ≠ [])
    (hlast : (parseContent H).after.getLast? ≠ some []) :
    ((parseContent (render (parseContent H))).before =
        (parseContent H).before ∨
      (parseContent (render (parseContent H))).before =
        (parseContent H).before ++ [[]]) ∧
    (parseContent (render (parseContent H))).after = (parseContent H).after ∧
    (parseContent (render (parseContent H))).bindings =
      (parseContent H).bindings ∧
    render (parseContent (render (parseContent H))) =
      render (parseContent H) := by
  have hbefore_eq : (parseContent H).before =
      (parseGo false false (linesOf H)).before := rfl
  have hafter_eq : (parseContent H).after =
      (parseGo false false (linesOf H)).afterCore ++
        (if (parseGo false false (linesOf H)).endInBlock = true ∧
            (parseGo false false (linesOf H)).unclosed ≠ [] then
          (parseGo false false (linesOf H)).unclosed.filter recoveryKeep
        else []) := rfl
  have hbind_eq : (parseContent H).bindings =
      foldInserts (parseGo false false (linesOf H)).inserts := rfl
  have hsort : (parseContent H).bindings.Pairwise keyLt := by
    rw [hbind_eq]
    exact foldInserts_pairwise _
  have hgood : ∀ q ∈ (parseContent H).bindings, goodPair q :=
    fun q hq => parseContent_bindings_good hq
  have hbefore : ∀ l ∈ (parseContent H).before, keepOutside l := by
    rw [hbefore_eq]
    exact pg_before_keep _ false false
  have hmemB : ∀ l ∈ (parseContent H).before, l ∈ linesOf H := by
    rw [hbefore_eq]
    exact (pg_mem (linesOf H) false false).1
  have hbc : ∀ l ∈ (parseContent H).before, '\n' ∉ l ∧ '\u000d' ∉ l := by
    intro l hl
    have hml := hmemB l hl
    exact ⟨mem_linesOf_no_nl hml,
      fun hr => hc.1 (mem_linesOf_subset hml _ hr)⟩
  have hmemA : ∀ l ∈ (parseContent H).after,
      l ∈ (parseGo false false (linesOf H)).afterCore ∨
      l ∈ (parseGo false false (linesOf H)).unclosed := by
    intro l hl
    rw [hafter_eq] at hl
    rcases List.mem_append.mp hl with h | h
    · exact Or.inl h
    · right
      split at h
      · exact List.mem_of_mem_filter h
      · simp at h
  have hafter : ∀ l ∈ (parseContent H).after,
      rustTrim l ≠ MARKER_BEGIN ∧ rustTrim l ≠ MARKER_END := by
    intro l hl
    rcases hmemA l hl with h | h
    · exact (pg_after_unclosed_no_marker (linesOf H) false false).1 l h
    · exact (pg_after_unclosed_no_marker (linesOf H) false false).2 l h
  have hac : ∀ l ∈ (parseContent H).after, '\n' ∉ l ∧ '\u000d' ∉ l := by
    intro l hl
    have hml : l ∈ linesOf H := by
      rcases hmemA l hl with h | h
      · exact (pg_mem (linesOf H) false false).2.1 l h
      · exact (pg_mem (linesOf H) false false).2.2.1 l h
    exact ⟨mem_linesOf_no_nl hml,
      fun hr => hc.1 (mem_linesOf_subset hml _ hr)⟩
  exact parse_render_idem (parseContent H) hb hsort hgood hbefore hbc
    hafter hac hlast

/-- C9 witness: the roundtrip theorem at a concrete well-formed hosts file
with user lines before and after the managed block. -/
theorem C9_parse_render_roundtrip_witness :
    (contentClean "x\n\n# BEGIN anyFAST\n1.2.3.4\ta.com\t# anyFAST\n# END anyFAST\nz".data ∧
      (parseContent "x\n\n# BEGIN anyFAST\n1.2.3.4\ta.com\t# anyFAST\n# END anyFAST\nz".data).bindings ≠ [] ∧
      (parseContent "x\n\n# BEGIN anyFAST\n1.2.3.4\ta.com\t# anyFAST\n# END anyFAST\nz".data).after.getLast? ≠ some []) ∧
    (((parseContent (render (parseContent "x\n\n# BEGIN anyFAST\n1.2.3.4\ta.com\t# anyFAST\n# END anyFAST\nz".data))).before =
        (parseContent "x\n\n# BEGIN anyFAST\n1.2.3.4\ta.com\t# anyFAST\n# END anyFAST\nz".data).before ∨
      (parseContent (render (parseContent "x\n\n# BEGIN anyFAST\n1.2.3.4\ta.com\t# anyFAST\n# END anyFAST\nz".data))).before =
        (parseContent "x\n\n# BEGIN anyFAST\n1.2.3.4\ta.com\t# anyFAST\n# END anyFAST\nz".data).before ++ [[]]) ∧
    (parseContent (render (parseContent "x\n\n# BEGIN anyFAST\n1.2.3.4\ta.com\t# anyFAST\n# END anyFAST\nz".data))).after =
      (parseContent "x\n\n# BEGIN anyFAST\n1.2.3.4\ta.com\t# anyFAST\n# END anyFAST\nz".data).after ∧
    (parseContent (render (parseContent "x\n\n# BEGIN anyFAST\n1.2.3.4\ta.com\t# anyFAST\n# END anyFAST\nz".data))).bindings =
      (parseContent "x\n\n# BEGIN anyFAST\n1.2.3.4\ta.com\t# anyFAST\n# END anyFAST\nz".data).bindings ∧
    render (parseContent (render (parseContent "x\n\n# BEGIN anyFAST\n1.2.3.4\ta.com\t# anyFAST\n# END anyFAST\nz".data))) =
      render (parseContent "x\n\n# BEGIN anyFAST\n1.2.3.4\ta.com\t# anyFAST\n# END anyFAST\nz".data)) :=
  ⟨⟨⟨by decide, by decide⟩, by decide, by decide⟩,
   C9_parse_render_roundtrip _ ⟨by decide, by decide⟩ (by decide) (by decide)⟩

/-! ## The endpoint tester and the health checker

`endpoint_tester.rs` probes candidate IPs over the network and builds
`EndpointResult` values (`models.rs`); `health_checker.rs` periodically
re-tests endpoints and rewrites the hosts file.  Latencies are modelled as
rationals, network outcomes as oracle parameters. -/

structure Endpoint where
  name : String
  url : String
  domain : String
  enabled : Bool
deriving DecidableEq

structure EndpointResult where
  endpoint : Endpoint
  ip : String
  latency : ℚ
  ttfb : ℚ
  success : Bool
  error : Option String
  original_ip : String
  original_latency : ℚ
  speedup_percent : ℚ
  use_original : Bool
deriving DecidableEq

namespace Models

/-- `EndpointResult::success`. -/
def success (endpoint : Endpoint) (ip : String) (latency : ℚ) :
    EndpointResult :=
  ⟨endpoint, ip, latency, latency, true, none, "", 0, 0, false⟩

/-- `EndpointResult::success_with_comparison`: the speedup percentage is
`(original_latency - latency) / original_latency * 100` whenever the original
latency is positive and the new latency is finite, with no clamping at 0;
`use_original` records whether the chosen IP happens to be the original. -/
def success_with_comparison (endpoint : Endpoint) (ip : String) (latency : ℚ)
    (original_ip : String) (original_latency : ℚ) : EndpointResult :=
  ⟨endpoint, ip, latency, latency, true, none, original_ip, original_latency,
    (if 0 < original_latency ∧ latency < 9999 then
      (original_latency - latency) / original_latency * 100
    else 0),
    decide (ip = original_ip)⟩

/-- `EndpointResult::failure`: latency 9999, empty `original_ip`,
`use_original = false`. -/
def failure (endpoint : Endpoint) (ip : String) (error : String) :
    EndpointResult :=
  ⟨endpoint, ip, 9999, 9999, false, some error, "", 0, 0, false⟩

end Models

/-- `MAX_TEST_IPS`. -/
def MAX_TEST_IPS : ℕ := 15

/-- `CF_RANGES`. -/
def CF_RANGES : List String :=
  ["104.16.", "104.17.", "104.18.", "104.19.", "104.20.", "104.21.",
   "104.22.", "104.23.", "104.24.", "104.25.", "104.26.", "104.27.",
   "172.67.", "162.159."]

/-- `is_cloudflare_ip`. -/
def is_cloudflare_ip (ip : String) : Bool :=
  CF_RANGES.any (fun r => r.data.isPrefixOf ip.data)

/-- The merge loop shared by `merge_candidate_ips` and the multi-DNS merge of
`test_endpoint`: take candidates in order, skip ones already collected, stop
as soon as `limit` many are collected. -/
def mergeGo (limit : ℕ) (merged : List String) : List String → List String
  | [] => merged
  | ip :: rest =>
    if ip ∈ merged then mergeGo limit merged rest
    else if limit ≤ (merged ++ [ip]).length then merged ++ [ip]
    else mergeGo limit (merged ++ [ip]) rest

/-- `merge_candidate_ips`: online CF list first, then current DNS IPs. -/
def merge_candidate_ips (cf_ips dns_ips : List String) (limit : ℕ) :
    List String :=
  mergeGo limit [] (cf_ips ++ dns_ips)

/-- The `test_ips` selection of `test_endpoint`: a non-empty user-configured
list is used verbatim; otherwise for Cloudflare domains the online CF list is
merged with the DNS IPs, and for other domains the DNS IPs are merged with
the multi-DNS discoveries, both capped at `MAX_TEST_IPS`. -/
def select_test_ips (custom_cf_ips cf_ips dns_ips multi_dns_ips :
    List String) : List String :=
  if custom_cf_ips ≠ [] then custom_cf_ips
  else if dns_ips.any is_cloudflare_ip then
    merge_candidate_ips cf_ips dns_ips MAX_TEST_IPS
  else mergeGo MAX_TEST_IPS [] (dns_ips ++ multi_dns_ips)

/-- `test_rounds.clamp(1, 5)` from `EndpointTester::new`. -/
def test_rounds_clamp (n : ℕ) : ℕ := min (max n 1) 5

/-- Insertion into an ascending latency list. -/
def insLat (x : ℚ) : List ℚ → List ℚ
  | [] => [x]
  | y :: rest => if x ≤ y then x :: y :: rest else y :: insLat x rest

/-- `latencies.sort_by(partial_cmp)`, ascending. -/
def sortLat : List ℚ → List ℚ
  | [] => []
  | x :: rest => insLat x (sortLat rest)

/-- `latencies[latencies.len() / 2]` after sorting: the upper median. -/
def median (l : List ℚ) : ℚ := (sortLat l).getD ((sortLat l).length / 2) 0

/-- `EndpointTester::test_single_ip` as a function of the per-round attempt
outcomes (`none` = failure or timeout of that round): a first-round failure
aborts with `首轮测试失败`, later failures are ignored, and the reported
latency is the median of the collected samples. -/
def test_single_ip (ep : Endpoint) (ip : String) :
    List (Option ℚ) → EndpointResult
  | [] => Models.failure ep ip "全部超时"
  | none :: _ => Models.failure ep ip "首轮测试失败"
  | some l :: rest => Models.success ep ip (median (l :: rest.filterMap id))

/-- `SWITCH_SILENT_WINDOW_SECS`. -/
def SWITCH_SILENT_WINDOW_SECS : ℤ := 120

/-- `i64::saturating_sub` on the integers: the difference clamped to
`[i64::MIN, i64::MAX] = [-2^63, 2^63 - 1]`. -/
def satSub64 (a b : ℤ) : ℤ :=
  max (-9223372036854775808) (min (a - b) 9223372036854775807)

/-- `HashMap::get` on the association-list model of
`pending_switch_since`. -/
def lookupA (d : String) : List (String × ℤ) → Option ℤ
  | [] => none
  | q :: rest => if q.1 = d then some q.2 else lookupA d rest

/-- `HealthChecker::should_switch_after_silent_window`: the decision plus the
updated `pending_switch_since` map. -/
def should_switch_after_silent_window (domain : String) (now : ℤ)
    (should_switch_condition in_cooldown : Bool)
    (pending_switch_since : List (String × ℤ)) :
    Bool × List (String × ℤ) :=
  if should_switch_condition = false then
    (false, pending_switch_since.filter (fun q => !(q.1 = domain)))
  else
    match lookupA domain pending_switch_since with
    | some since =>
      ((if satSub64 now since < SWITCH_SILENT_WINDOW_SECS then false
        else !in_cooldown), pending_switch_since)
    | none =>
      ((if satSub64 now now < SWITCH_SILENT_WINDOW_SECS then false
        else !in_cooldown), pending_switch_since ++ [(domain, now)])

/-- A sequence of silent-window calls for one domain; each call is
`(now, should_switch_condition, in_cooldown)`.  The run's value is the last
call's decision together with the final pending map. -/
def runCalls (domain : String) (pending : List (String × ℤ)) :
    List (ℤ × Bool × Bool) → Bool × List (String × ℤ)
  | [] => (false, pending)
  | c :: rest =>
    match rest with
    | [] => should_switch_after_silent_window domain c.1 c.2.1 c.2.2 pending
    | _ :: _ =>
      runCalls domain
        (should_switch_after_silent_window domain c.1 c.2.1 c.2.2 pending).2
        rest

/-- A network probe performed by the health checker. -/
inductive ProbeAction where
  | fullTest (domain : String)
  | singleTest (domain ip : String)
deriving DecidableEq

/-- The probes one `perform_check` tick performs, per endpoint: the full
multi-candidate `test_endpoint` always runs; the currently bound IP is
additionally probed with `test_ip` exactly when a binding exists and the full
test did not already succeed with that same IP.  `binding` stands for
`hosts_ops::read_binding` and `fullResult` for the `test_endpoint`
outcome. -/
def perform_check_actions (endpoints : List Endpoint)
    (binding : String → Option String)
    (fullResult : String → EndpointResult) : List ProbeAction :=
  endpoints.flatMap (fun ep =>
    match binding ep.domain with
    | none => [.fullTest ep.domain]
    | some cur =>
      if (fullResult ep.domain).success = true ∧ cur = (fullResult ep.domain).ip
      then [.fullTest ep.domain]
      else [.fullTest ep.domain, .singleTest ep.domain cur])

/-- `HealthChecker::dedupe_endpoints_by_domain` worker. -/
def dedupeGo (seen : List String) : List Endpoint → List Endpoint
  | [] => []
  | e :: rest =>
    if e.domain ∈ seen then dedupeGo seen rest
    else e :: dedupeGo (e.domain :: seen) rest

/-- `HealthChecker::dedupe_endpoints_by_domain`. -/
def dedupe_endpoints_by_domain (endpoints : List Endpoint) : List Endpoint :=
  dedupeGo [] endpoints

/-- The `(domain, ip)` bindings `HealthChecker::perform_switch` submits to
the batch write: for each deduplicated endpoint whose re-test succeeded, the
write is skipped only when the best IP equals the currently bound one;
`retest` stands for the `test_endpoint` re-test. -/
def perform_switch_bindings (endpoints : List Endpoint)
    (binding : String → Option String)
    (retest : String → EndpointResult) : List (String × String) :=
  (dedupe_endpoints_by_domain endpoints).filterMap (fun ep =>
    if (retest ep.domain).success = true then
      if binding ep.domain = some (retest ep.domain).ip then none
      else some (ep.domain, (retest ep.domain).ip)
    else none)

/-! ### Claim C2: result-record invariants -/

/-- C2 counterexample: `speedup_percent` is not clamped at 0 — when the best
candidate (200 ms) is slower than the original DNS IP (100 ms) the speedup is
−100; and a failure result built with an empty probed IP has
`ip = original_ip = ""` yet `use_original = false`, refuting the claimed
equivalence. -/
theorem C2_result_counterexample :
    (Models.success_with_comparison ⟨"n", "u", "d", true⟩ "1.2.3.4" 200
      "5.6.7.8" 100).speedup_percent < 0 ∧
    (Models.failure ⟨"n", "u", "d", true⟩ "" "DNS超时").ip =
      (Models.failure ⟨"n", "u", "d", true⟩ "" "DNS超时").original_ip ∧
    (Models.failure ⟨"n", "u", "d", true⟩ "" "DNS超时").use_original = false := by
  refine ⟨?_, rfl, rfl⟩
  norm_num [Models.success_with_comparison]

/-- C2 (amended): a failure result has `success = false`, latency 9999, zero
speedup and `use_original = false` (even when the probed ip coincides with
the empty `original_ip`); a comparison success has `success = true`, the
given latency, `use_original` true exactly when the chosen ip equals the
original, and a speedup that is non-negative when the chosen latency does not
exceed the original but strictly negative — not clamped at 0 — whenever the
chosen candidate is slower than the original. -/
theorem C2_result_invariants (ep : Endpoint) (ip oip err : String)
    (lat olat : ℚ) :
    ((Models.failure ep ip err).success = false ∧
      (Models.failure ep ip err).latency = 9999 ∧
      (Models.failure ep ip err).speedup_percent = 0 ∧
      (Models.failure ep ip err).use_original = false) ∧
    ((Models.success_with_comparison ep ip lat oip olat).success = true ∧
      (Models.success_with_comparison ep ip lat oip olat).latency = lat ∧
      ((Models.success_with_comparison ep ip lat oip olat).use_original =
          true ↔ ip = oip) ∧
      (0 < olat → lat < 9999 → lat ≤ olat →
        0 ≤ (Models.success_with_comparison ep ip lat oip olat).speedup_percent) ∧
      (0 < olat → lat < 9999 → olat < lat →
        (Models.success_with_comparison ep ip lat oip olat).speedup_percent <
          0)) := by
  refine ⟨⟨rfl, rfl, rfl, rfl⟩, rfl, rfl, ?_, ?_, ?_⟩
  · simp [Models.success_with_comparison]
  · intro h1 h2 h3
    have hc : (Models.success_with_comparison ep ip lat oip olat).speedup_percent =
        (olat - lat) / olat * 100 := by
      simp [Models.success_with_comparison, if_pos (And.intro h1 h2)]
    rw [hc]
    exact mul_nonneg (div_nonneg (sub_nonneg.mpr h3) (le_of_lt h1)) (by norm_num)
  · intro h1 h2 h3
    have hc : (Models.success_with_comparison ep ip lat oip olat).speedup_percent =
        (olat - lat) / olat * 100 := by
      simp [Models.success_with_comparison, if_pos (And.intro h1 h2)]
    rw [hc]
    exact mul_neg_of_neg_of_pos
      (div_neg_of_neg_of_pos (sub_neg.mpr h3) h1) (by norm_num)

/-- C2 witness: the invariants at concrete latencies — a 50 ms candidate
against a 100 ms original yields a non-negative speedup, a 200 ms candidate
against a 100 ms original yields a negative one. -/
theorem C2_result_invariants_witness :
    0 ≤ (Models.success_with_comparison ⟨"n", "u", "d", true⟩ "1.1.1.1" 50
      "2.2.2.2" 100).speedup_percent ∧
    (Models.success_with_comparison ⟨"n", "u", "d", true⟩ "1.1.1.1" 200
      "2.2.2.2" 100).speedup_percent < 0 :=
  ⟨(C2_result_invariants ⟨"n", "u", "d", true⟩ "1.1.1.1" "2.2.2.2" "e" 50
      100).2.2.2.2.1 (by norm_num) (by norm_num) (by norm_num),
   (C2_result_invariants ⟨"n", "u", "d", true⟩ "1.1.1.1" "2.2.2.2" "e" 200
      100).2.2.2.2.2 (by norm_num) (by norm_num) (by norm_num)⟩

/-! ### Claim C3: candidate-IP selection -/

theorem mergeGo_nodup_len (limit : ℕ) :
    ∀ (l merged : List String), merged.Nodup → merged.length < limit →
      (mergeGo limit merged l).Nodup ∧ (mergeGo limit merged l).length ≤ limit := by
  intro l
  induction l with
  | nil =>
    intro merged h1 h2
    exact ⟨h1, le_of_lt h2⟩
  | cons ip rest ih =>
    intro merged h1 h2
    by_cases hm : ip ∈ merged
    · simp only [mergeGo, if_pos hm]
      exact ih merged h1 h2
    · have hnd : (merged ++ [ip]).Nodup :=
        h1.append (List.nodup_singleton ip) (by simpa using hm)
      simp only [mergeGo, if_neg hm]
      by_cases hl : limit ≤ (merged ++ [ip]).length
      · rw [if_pos hl]
        refine ⟨hnd, ?_⟩
        simp only [List.length_append, List.length_singleton]
        omega
      · rw [if_neg hl]
        refine ih _ hnd ?_
        simp only [List.length_append, List.length_singleton] at hl ⊢
        omega

/-- C3 counterexample: a user-configured preferred-IP list of sixteen copies
of the same IP is handed to the probe phase verbatim — more than 15 entries
and full of duplicates — because the custom list bypasses both the cap and
the deduplicating merge. -/
theorem C3_custom_list_counterexample :
    (select_test_ips (List.replicate 16 "1.1.1.1") [] ["2.2.2.2"] []).length =
      16 ∧
    ¬(select_test_ips (List.replicate 16 "1.1.1.1") [] ["2.2.2.2"] []).Nodup ∧
    select_test_ips (List.replicate 16 "1.1.1.1") [] ["2.2.2.2"] [] =
      List.replicate 16 "1.1.1.1" := by
  refine ⟨by decide, by decide, by decide⟩

/-- C3 (amended): a non-empty user-configured preferred-IP list is used as
the candidate list exactly, without DNS mixing but also without any
deduplication or cap; only when no custom list is configured (the CF-merge
and multi-DNS paths) is the candidate list duplicate-free with at most
`MAX_TEST_IPS = 15` entries. -/
theorem C3_candidate_selection (custom cf dns multi : List String) :
    (custom ≠ [] → select_test_ips custom cf dns multi = custom) ∧
    (custom = [] →
      (select_test_ips custom cf dns multi).length ≤ MAX_TEST_IPS ∧
      (select_test_ips custom cf dns multi).Nodup) := by
  constructor
  · intro h
    simp [select_test_ips, h]
  · intro h
    subst h
    unfold select_test_ips merge_candidate_ips
    rw [if_neg (by simp)]
    split
    · have h15 := mergeGo_nodup_len MAX_TEST_IPS (cf ++ dns) [] (by simp)
        (by norm_num [MAX_TEST_IPS])
      exact ⟨h15.2, h15.1⟩
    · have h15 := mergeGo_nodup_len MAX_TEST_IPS (dns ++ multi) [] (by simp)
        (by norm_num [MAX_TEST_IPS])
      exact ⟨h15.2, h15.1⟩

/-- C3 witness: a one-entry custom list is used verbatim, and with no custom
list the merged candidates are capped and duplicate-free. -/
theorem C3_candidate_selection_witness :
    select_test_ips ["9.9.9.9"] [] ["1.1.1.1"] [] = ["9.9.9.9"] ∧
    ((select_test_ips [] ["104.16.0.1"] ["104.16.0.1", "2.2.2.2"]
        ["3.3.3.3"]).length ≤ MAX_TEST_IPS ∧
      (select_test_ips [] ["104.16.0.1"] ["104.16.0.1", "2.2.2.2"]
        ["3.3.3.3"]).Nodup) :=
  ⟨(C3_candidate_selection ["9.9.9.9"] [] ["1.1.1.1"] []).1 (by decide),
   (C3_candidate_selection [] ["104.16.0.1"] ["104.16.0.1", "2.2.2.2"]
     ["3.3.3.3"]).2 rfl⟩

/-! ### Claim C7: single-IP probe -/

/-- C7: in a single-IP probe the rounds are clamped to `[1, 5]`, a failure of
the very first attempt returns the immediate failure `首轮测试失败`, later
failures are ignored and the reported latency is the median
(`sorted[len / 2]`) of the successful attempts; for successive latencies
70, 300, 90 the reported latency is 90. -/
theorem C7_single_ip_probe (ep : Endpoint) (ip : String) :
    (∀ rest, test_single_ip ep ip (none :: rest) =
      Models.failure ep ip "首轮测试失败") ∧
    (∀ l rest, test_single_ip ep ip (some l :: rest) =
      Models.success ep ip (median (l :: rest.filterMap id))) ∧
    median [70, 300, 90] = 90 ∧
    test_single_ip ep ip [some 70, some 300, some 90] =
      Models.success ep ip 90 ∧
    (∀ n, 1 ≤ test_rounds_clamp n ∧ test_rounds_clamp n ≤ 5) := by
  have hmed : median [70, 300, 90] = 90 := by
    norm_num [median, sortLat, insLat]
  refine ⟨fun rest => rfl, fun l rest => rfl, hmed, ?_, fun n => ?_⟩
  · show Models.success ep ip (median [70, 300, 90]) = Models.success ep ip 90
    rw [hmed]
  · unfold test_rounds_clamp
    omega

/-! ### Claim C5: probes of one health-check tick -/

/-- C5 counterexample: an endpoint with no pinned binding is still probed —
with a full multi-candidate `test_endpoint` run — and a pinned endpoint
whose full test fails gets the full run plus the single-IP probe, so the
periodic phase is never restricted to a single `test_ip` call of the pinned
IP. -/
theorem C5_light_phase_counterexample :
    perform_check_actions [⟨"n", "u", "d", true⟩] (fun _ => none)
      (fun _ => Models.failure ⟨"n", "u", "d", true⟩ "" "e") =
      [.fullTest "d"] ∧
    perform_check_actions [⟨"n", "u", "d", true⟩] (fun _ => some "1.1.1.1")
      (fun _ => Models.failure ⟨"n", "u", "d", true⟩ "" "e") =
      [.fullTest "d", .singleTest "d" "1.1.1.1"] := by
  refine ⟨rfl, by decide⟩

/-- C5 (amended): on each health-checker tick every endpoint — pinned or not
— undergoes a full multi-candidate `test_endpoint` run, and the currently
pinned IP is additionally probed with a single `test_ip` call exactly when a
binding exists and the full run did not already succeed with that same
IP. -/
theorem C5_check_probes (eps : List Endpoint)
    (binding : String → Option String)
    (fullResult : String → EndpointResult) :
    (∀ ep ∈ eps, ProbeAction.fullTest ep.domain ∈
      perform_check_actions eps binding fullResult) ∧
    (∀ d ip, ProbeAction.singleTest d ip ∈
        perform_check_actions eps binding fullResult ↔
      ∃ ep ∈ eps, ep.domain = d ∧ binding d = some ip ∧
        ¬((fullResult d).success = true ∧ ip = (fullResult d).ip)) := by
  constructor
  · intro ep hep
    unfold perform_check_actions
    rw [List.mem_flatMap]
    refine ⟨ep, hep, ?_⟩
    rcases hb : binding ep.domain with _ | cur
    · simp
    · show ProbeAction.fullTest ep.domain ∈
        (if (fullResult ep.domain).success = true ∧
            cur = (fullResult ep.domain).ip
         then [ProbeAction.fullTest ep.domain]
         else [ProbeAction.fullTest ep.domain,
           ProbeAction.singleTest ep.domain cur])
      split
      · simp
      · simp
  · intro d ip
    unfold perform_check_actions
    rw [List.mem_flatMap]
    constructor
    · rintro ⟨ep, hep, hmem⟩
      rcases hb : binding ep.domain with _ | cur
      · rw [hb] at hmem
        simp at hmem
      · rw [hb] at hmem
        have hmem2 : ProbeAction.singleTest d ip ∈
            (if (fullResult ep.domain).success = true ∧
                cur = (fullResult ep.domain).ip
             then [ProbeAction.fullTest ep.domain]
             else [ProbeAction.fullTest ep.domain,
               ProbeAction.singleTest ep.domain cur]) := hmem
        split at hmem2
        · simp at hmem2
        · rename_i hcond
          simp only [List.mem_cons, List.mem_singleton] at hmem2
          rcases hmem2 with hmem2 | hmem2 | hmem2
          · exact absurd hmem2 (by simp)
          · injection hmem2 with hd2 hip2
            refine ⟨ep, hep, hd2.symm, ?_, ?_⟩
            · rw [hd2, hb, hip2]
            · rw [hd2, hip2]
              exact hcond
          · simp at hmem2
    · rintro ⟨ep, hep, hd, hb, hcond⟩
      refine ⟨ep, hep, ?_⟩
      rw [hd, hb]
      show ProbeAction.singleTest d ip ∈
        (if (fullResult d).success = true ∧ ip = (fullResult d).ip
         then [ProbeAction.fullTest d]
         else [ProbeAction.fullTest d, ProbeAction.singleTest d ip])
      rw [if_neg hcond]
      simp

/-- C5 witness: the probe characterization at a concrete pinned endpoint
whose full test fails. -/
theorem C5_check_probes_witness :
    ProbeAction.fullTest "d" ∈
      perform_check_actions [⟨"n", "u", "d", true⟩]
        (fun _ => some "1.1.1.1")
        (fun _ => Models.failure ⟨"n", "u", "d", true⟩ "" "e") ∧
    ProbeAction.singleTest "d" "1.1.1.1" ∈
      perform_check_actions [⟨"n", "u", "d", true⟩]
        (fun _ => some "1.1.1.1")
        (fun _ => Models.failure ⟨"n", "u", "d", true⟩ "" "e") :=
  ⟨(C5_check_probes _ _ _).1 ⟨"n", "u", "d", true⟩ (by simp),
   ((C5_check_probes _ _ _).2 "d" "1.1.1.1").mpr
     ⟨⟨"n", "u", "d", true⟩, by simp, rfl, rfl, by simp [Models.failure]⟩⟩

/-! ### Claim C6: the switch decision -/

/-- C6 counterexample: a successful re-test whose best candidate differs from
the pinned IP is written even at an absurdly high latency (no 20 % / 50 ms
improvement check exists), while an equal-IP result merely skips the write
(no failure counters are touched in `perform_switch`). -/
theorem C6_switch_counterexample :
    perform_switch_bindings [⟨"n", "u", "d", true⟩]
      (fun _ => some "1.1.1.1")
      (fun _ => Models.success ⟨"n", "u", "d", true⟩ "2.2.2.2" 9998) =
      [("d", "2.2.2.2")] ∧
    perform_switch_bindings [⟨"n", "u", "d", true⟩]
      (fun _ => some "1.1.1.1")
      (fun _ => Models.success ⟨"n", "u", "d", true⟩ "1.1.1.1" 1) = [] := by
  constructor
  · rfl
  · rfl

/-- C6 (amended): `perform_switch` submits a binding for exactly those
deduplicated endpoints whose re-test succeeded with a best IP different from
the currently pinned one — with no latency-improvement threshold and no
counter clearing; when the best IP equals the pinned IP the write is merely
skipped. -/
theorem C6_switch_decision (eps : List Endpoint)
    (binding : String → Option String)
    (retest : String → EndpointResult) :
    ∀ d ip, (d, ip) ∈ perform_switch_bindings eps binding retest ↔
      ∃ ep ∈ dedupe_endpoints_by_domain eps, ep.domain = d ∧
        (retest d).success = true ∧ (retest d).ip = ip ∧
        binding d ≠ some ip := by
  intro d ip
  unfold perform_switch_bindings
  rw [List.mem_filterMap]
  constructor
  · rintro ⟨ep, hep, hf⟩
    split at hf
    · rename_i hs
      split at hf
      · exact absurd hf (by simp)
      · rename_i hb
        injection hf with hpair
        have hd : ep.domain = d := congrArg Prod.fst hpair
        have hip : (retest ep.domain).ip = ip := congrArg Prod.snd hpair
        subst hd
        exact ⟨ep, hep, rfl, hs, hip, hip ▸ hb⟩
    · exact absurd hf (by simp)
  · rintro ⟨ep, hep, hd, hs, hip, hb⟩
    refine ⟨ep, hep, ?_⟩
    subst hd
    rw [if_pos hs, if_neg (hip ▸ hb), hip]

/-- C6 witness: the decision characterization at a concrete endpoint whose
re-test succeeds with a different IP. -/
theorem C6_switch_decision_witness :
    ("d", "2.2.2.2") ∈ perform_switch_bindings [⟨"n", "u", "d", true⟩]
      (fun _ => some "1.1.1.1")
      (fun _ => Models.success ⟨"n", "u", "d", true⟩ "2.2.2.2" 30) :=
  (C6_switch_decision _ _ _ "d" "2.2.2.2").mpr
    ⟨⟨"n", "u", "d", true⟩, by simp [dedupe_endpoints_by_domain, dedupeGo],
      rfl, rfl, rfl, by simp⟩

/-! ### Claim C8: the silent-window switch gate -/

theorem lookupA_filter_self (d : String) :
    ∀ pending : List (String × ℤ),
      lookupA d (pending.filter (fun q => !(q.1 = d))) = none := by
  intro pending
  induction pending with
  | nil => rfl
  | cons q rest ih =>
    by_cases hq : q.1 = d
    · simp [List.filter_cons, hq, ih]
    · simp [List.filter_cons, hq, lookupA, ih]

theorem lookupA_append_none (d : String) :
    ∀ (p t : List (String × ℤ)), lookupA d p = none →
      lookupA d (p ++ t) = lookupA d t := by
  intro p
  induction p with
  | nil => intro t _; rfl
  | cons q rest ih =>
    intro t h
    by_cases hq : q.1 = d
    · rw [lookupA, if_pos hq] at h
      exact Option.noConfusion h
    · rw [lookupA, if_neg hq] at h
      rw [List.cons_append, lookupA, if_neg hq]
      exact ih t h

theorem satSub64_self (a : ℤ) : satSub64 a a = 0 := by
  unfold satSub64
  rw [sub_self]
  norm_num

theorem satSub64_self_lt (a : ℤ) :
    satSub64 a a < SWITCH_SILENT_WINDOW_SECS := by
  rw [satSub64_self]
  norm_num [SWITCH_SILENT_WINDOW_SECS]

theorem runCalls_from_some (domain : String) :
    ∀ (calls : List (ℤ × Bool × Bool)) (pending : List (String × ℤ)) (t : ℤ),
      lookupA domain pending = some t →
      (∀ c ∈ calls, c.2.1 = true) →
      (runCalls domain pending calls).1 = true →
      ∃ cl, calls.getLast? = some cl ∧ cl.2.2 = false ∧
        SWITCH_SILENT_WINDOW_SECS ≤ satSub64 cl.1 t := by
  intro calls
  induction calls with
  | nil =>
    intro pending t h1 h2 h3
    simp [runCalls] at h3
  | cons c rest ih =>
    intro pending t h1 h2 h3
    have hc : c.2.1 = true := h2 c (by simp)
    cases rest with
    | nil =>
      have he : runCalls domain pending [c] =
          should_switch_after_silent_window domain c.1 c.2.1 c.2.2 pending :=
        rfl
      rw [he] at h3
      unfold should_switch_after_silent_window at h3
      rw [hc, if_neg (by simp), h1] at h3
      have h4 : (if satSub64 c.1 t < SWITCH_SILENT_WINDOW_SECS then false
          else !c.2.2) = true := h3
      by_cases hlt : satSub64 c.1 t < SWITCH_SILENT_WINDOW_SECS
      · rw [if_pos hlt] at h4
        exact absurd h4 (by simp)
      · rw [if_neg hlt] at h4
        exact ⟨c, rfl, by simpa using h4, not_lt.mp hlt⟩
    | cons c2 rest2 =>
      have he : runCalls domain pending (c :: c2 :: rest2) =
          runCalls domain
            (should_switch_after_silent_window domain c.1 c.2.1 c.2.2
              pending).2 (c2 :: rest2) := rfl
      have hkeep :
          (should_switch_after_silent_window domain c.1 c.2.1 c.2.2
            pending).2 = pending := by
        unfold should_switch_after_silent_window
        rw [hc, if_neg (by simp), h1]
      rw [he, hkeep] at h3
      obtain ⟨cl, hcl, h4, h5⟩ :=
        ih pending t h1 (fun x hx => h2 x (by simp [hx])) h3
      exact ⟨cl, by rw [List.getLast?_cons_cons]; exact hcl, h4, h5⟩

/-- C8: the silent-window gate.  A call with the condition false clears the
domain's pending timer and refuses the switch; the first call with the
condition true only records the timestamp and returns false; a call may
return true only when a pending timestamp at least
`SWITCH_SILENT_WINDOW_SECS = 120` seconds old exists and the cooldown has
expired; and over any run of calls whose condition is continuously true,
starting with no pending timer, a true decision requires the last call to be
at least 120 seconds after the first and out of cooldown. -/
theorem C8_silent_window (domain : String) :
    (∀ (now : ℤ) (cool : Bool) (pending : List (String × ℤ)),
      should_switch_after_silent_window domain now false cool pending =
        (false, pending.filter (fun q => !(q.1 = domain))) ∧
      lookupA domain
        (should_switch_after_silent_window domain now false cool pending).2 =
        none) ∧
    (∀ (now : ℤ) (cool : Bool) (pending : List (String × ℤ)),
      lookupA domain pending = none →
      (should_switch_after_silent_window domain now true cool pending).1 =
        false ∧
      lookupA domain
        (should_switch_after_silent_window domain now true cool pending).2 =
        some now) ∧
    (∀ (now : ℤ) (cond cool : Bool) (pending : List (String × ℤ)),
      (should_switch_after_silent_window domain now cond cool pending).1 =
        true →
      cond = true ∧ cool = false ∧
      ∃ t, lookupA domain pending = some t ∧
        SWITCH_SILENT_WINDOW_SECS ≤ satSub64 now t) ∧
    (∀ (calls : List (ℤ × Bool × Bool)) (pending : List (String × ℤ)),
      lookupA domain pending = none →
      (∀ c ∈ calls, c.2.1 = true) →
      (runCalls domain pending calls).1 = true →
      ∃ c0 cl, calls.head? = some c0 ∧ calls.getLast? = some cl ∧
        cl.2.2 = false ∧ SWITCH_SILENT_WINDOW_SECS ≤ satSub64 cl.1 c0.1) := by
  refine ⟨?_, ?_, ?_, ?_⟩
  · intro now cool pending
    constructor
    · rfl
    · exact lookupA_filter_self domain pending
  · intro now cool pending h0
    unfold should_switch_after_silent_window
    rw [if_neg (by simp), h0]
    constructor
    · show (if satSub64 now now < SWITCH_SILENT_WINDOW_SECS then false
        else !cool) = false
      rw [if_pos (satSub64_self_lt now)]
    · show lookupA domain (pending ++ [(domain, now)]) = some now
      rw [lookupA_append_none domain pending _ h0]
      simp [lookupA]
  · intro now cond cool pending h
    cases cond with
    | false =>
      rw [show should_switch_after_silent_window domain now false cool
          pending =
        (false, pending.filter (fun q => !(q.1 = domain))) from rfl] at h
      exact absurd h (by simp)
    | true =>
      unfold should_switch_after_silent_window at h
      rw [if_neg (by simp)] at h
      rcases hl : lookupA domain pending with _ | t
      · rw [hl] at h
        have h2 : (if satSub64 now now < SWITCH_SILENT_WINDOW_SECS then false
            else !cool) = true := h
        rw [if_pos (satSub64_self_lt now)] at h2
        exact absurd h2 (by simp)
      · rw [hl] at h
        have h2 : (if satSub64 now t < SWITCH_SILENT_WINDOW_SECS then false
            else !cool) = true := h
        by_cases hlt : satSub64 now t < SWITCH_SILENT_WINDOW_SECS
        · rw [if_pos hlt] at h2
          exact absurd h2 (by simp)
        · rw [if_neg hlt] at h2
          exact ⟨rfl, by simpa using h2, t, rfl, not_lt.mp hlt⟩
  · intro calls pending h0 hall h3
    cases calls with
    | nil => simp [runCalls] at h3
    | cons c rest =>
      have hc : c.2.1 = true := hall c (by simp)
      cases rest with
      | nil =>
        have he : runCalls domain pending [c] =
            should_switch_after_silent_window domain c.1 c.2.1 c.2.2 pending :=
          rfl
        rw [he] at h3
        unfold should_switch_after_silent_window at h3
        rw [hc, if_neg (by simp), h0] at h3
        have h4 : (if satSub64 c.1 c.1 < SWITCH_SILENT_WINDOW_SECS then false
            else !c.2.2) = true := h3
        rw [if_pos (satSub64_self_lt c.1)] at h4
        exact absurd h4 (by simp)
      | cons c2 rest2 =>
        have he : runCalls domain pending (c :: c2 :: rest2) =
            runCalls domain
              (should_switch_after_silent_window domain c.1 c.2.1 c.2.2
                pending).2 (c2 :: rest2) := rfl
        have hstate :
            (should_switch_after_silent_window domain c.1 c.2.1 c.2.2
              pending).2 = pending ++ [(domain, c.1)] := by
          unfold should_switch_after_silent_window
          rw [hc, if_neg (by simp), h0]
        rw [he, hstate] at h3
        have hlk : lookupA domain (pending ++ [(domain, c.1)]) = some c.1 := by
          rw [lookupA_append_none domain pending _ h0]
          simp [lookupA]
        obtain ⟨cl, hcl, h4, h5⟩ := runCalls_from_some domain (c2 :: rest2) _
          c.1 hlk (fun x hx => hall x (by simp [hx])) h3
        exact ⟨c, cl, rfl, by rw [List.getLast?_cons_cons]; exact hcl, h4, h5⟩

/-- C8 witness: the gate at concrete calls — a pending entry 200 seconds old
out of cooldown yields a switch, and a two-call run 130 seconds apart with
the condition continuously true yields a switch realizing the window
bound. -/
theorem C8_silent_window_witness :
    (should_switch_after_silent_window "d" 1000 true false
        [("d", 800)]).1 = true ∧
    (true = true ∧ false = false ∧
      ∃ t, lookupA "d" [("d", 800)] = some t ∧
        SWITCH_SILENT_WINDOW_SECS ≤ satSub64 1000 t) ∧
    (∃ c0 cl,
      ([((0 : ℤ), true, false), ((130 : ℤ), true, false)] :
        List (ℤ × Bool × Bool)).head? = some c0 ∧
      ([((0 : ℤ), true, false), ((130 : ℤ), true, false)] :
        List (ℤ × Bool × Bool)).getLast? = some cl ∧
      cl.2.2 = false ∧ SWITCH_SILENT_WINDOW_SECS ≤ satSub64 cl.1 c0.1) := by
  have hn1 : ¬satSub64 1000 800 < SWITCH_SILENT_WINDOW_SECS := by
    norm_num [satSub64, SWITCH_SILENT_WINDOW_SECS]
  have hn2 : ¬satSub64 130 0 < SWITCH_SILENT_WINDOW_SECS := by
    norm_num [satSub64, SWITCH_SILENT_WINDOW_SECS]
  have h1 : (should_switch_after_silent_window "d" 1000 true false
      [("d", 800)]).1 = true := by
    unfold should_switch_after_silent_window
    rw [if_neg (by simp)]
    rw [show lookupA "d" [("d", 800)] = some 800 from rfl]
    show (if satSub64 1000 800 < SWITCH_SILENT_WINDOW_SECS then false
      else !false) = true
    rw [if_neg hn1]
    rfl
  have h2 : (runCalls "d" []
      [((0 : ℤ), true, false), ((130 : ℤ), true, false)]).1 = true := by
    show (should_switch_after_silent_window "d" 130 true false
      (should_switch_after_silent_window "d" 0 true false []).2).1 = true
    rw [show (should_switch_after_silent_window "d" 0 true false []).2 =
      [("d", 0)] from rfl]
    unfold should_switch_after_silent_window
    rw [if_neg (by simp)]
    rw [show lookupA "d" [("d", 0)] = some 0 from rfl]
    show (if satSub64 130 0 < SWITCH_SILENT_WINDOW_SECS then false
      else !false) = true
    rw [if_neg hn2]
    rfl
  refine ⟨h1, (C8_silent_window "d").2.2.1 1000 true false [("d", 800)] h1,
    (C8_silent_window "d").2.2.2
      [((0 : ℤ), true, false), ((130 : ℤ), true, false)] [] rfl
      (by simp) h2⟩

end AnyFast
